import Mathlib

/-!
# custom::vector (vector.h)

A shallow embedding of the `custom::vector<T>` class template and its nested
`iterator` / `const_iterator` classes, followed by theorems about it.

Modelling conventions.

* The free store is a family of arrays indexed by a block address.  `new T[n]`
  takes the next unused address, `delete[]` marks the block as released, and
  an address is never handed out twice, so a dangling pointer is never
  mistaken for a live one.
* A `T*` value is `NULL` or a block address together with a slot offset.
* Vector objects live in an object store indexed by object identity, so that
  `this` and a reference parameter may or may not name the same object.
* A member function is a state transformer whose result is normal
  termination, a C++ exception, a failed `assert` (abort), or undefined
  behaviour (an access outside a live array).
* `int` is 32 bit two's complement; arithmetic on it wraps explicitly.
-/

namespace custom

/-! ## Pointers, objects, state -/

/-- A value of type `T*`: `NULL`, or slot `off` of the heap array `block`. -/
inductive Ptr where
  | null : Ptr
  | loc (block : Nat) (off : Int) : Ptr
deriving DecidableEq

/-- Pointer arithmetic `p + n`.  `NULL + n` is kept as `NULL`. -/
def Ptr.add : Ptr → Int → Ptr
  | .null, _ => .null
  | .loc b o, n => .loc b (o + n)

/-- The private data members of `vector<T>`. -/
structure VecObj where
  data : Ptr
  numElements : Int
  numCapacity : Int
deriving DecidableEq

/-- Program state: the heap arrays, the next unused block address, and the
vector objects by identity. -/
structure State (T : Type) where
  blocks : Nat → Option (List T)
  next : Nat
  vecs : Nat → VecObj

/-- The exceptions in play: `std::bad_alloc`, and the two string literals the
class throws. -/
inductive Exn where
  | badAlloc : Exn
  | invalidIndex : Exn
  | unableToAllocate : Exn
deriving DecidableEq

/-- Result of running a piece of code from a state. -/
inductive Res (T α : Type) where
  | ok (a : α) (s : State T) : Res T α
  | thrown (e : Exn) (s : State T) : Res T α
  | assertFail : Res T α
  | undefined : Res T α

/-- Code with a result of type `α`. -/
def VM (T α : Type) : Type := State T → Res T α

/-- Sequencing: anything but normal termination ends the computation. -/
def VM.bind {T α β : Type} (m : VM T α) (f : α → VM T β) : VM T β := fun s =>
  match m s with
  | .ok a s1 => f a s1
  | .thrown e s1 => .thrown e s1
  | .assertFail => .assertFail
  | .undefined => .undefined

instance {T : Type} : Monad (VM T) where
  pure a := fun s => .ok a s
  bind := VM.bind

/-- A `throw` expression. -/
def throwExn {T α : Type} (e : Exn) : VM T α := fun s => .thrown e s

/-- A `try { body } catch (...) { handler }` block. -/
def tryCatchExn {T α : Type} (body : VM T α) (handler : Exn → VM T α) : VM T α := fun s =>
  match body s with
  | .thrown e s1 => handler e s1
  | r => r

/-- The `assert` of `<cassert>`, with assertions enabled. -/
def cassert {T : Type} (c : Bool) : VM T Unit := fun s =>
  if c then .ok () s else .assertFail

/-- Largest value of `int`. -/
def INT_MAX : Int := 2147483647

/-- Result of an `int` operation whose mathematical value is `x`. -/
def wrapInt (x : Int) : Int := (x + 2147483648) % 4294967296 - 2147483648

/-- A counted loop `for (int i = lo; ...; i++) body(i)` running `k` times. -/
def forLoop {T : Type} (body : Int → VM T Unit) : Nat → Int → VM T Unit
  | 0, _ => pure ()
  | k + 1, i => VM.bind (body i) (fun _ => forLoop body k (i + 1))

/-! ## Memory primitives -/

/-- Pointwise update of a store. -/
def upd {β : Type} (f : Nat → β) (a : Nat) (v : β) : Nat → β :=
  fun x => if x = a then v else f x

/-- Read `*p`. -/
def load {T : Type} (p : Ptr) : VM T T := fun s =>
  match p with
  | .null => .undefined
  | .loc b o =>
    match s.blocks b with
    | none => .undefined
    | some cells =>
      if 0 ≤ o then
        match cells[o.toNat]? with
        | some v => .ok v s
        | none => .undefined
      else .undefined

/-- Write `*p = v`. -/
def store {T : Type} (p : Ptr) (v : T) : VM T Unit := fun s =>
  match p with
  | .null => .undefined
  | .loc b o =>
    match s.blocks b with
    | none => .undefined
    | some cells =>
      if 0 ≤ o ∧ o.toNat < cells.length then
        .ok () { s with blocks := upd s.blocks b (some (cells.set o.toNat v)) }
      else .undefined

/-- The expression `new T[n]`: `allocOk` says whether the allocator can satisfy
the request; the slots of the new array are default initialised, which is
modelled as each holding `default` (for a scalar `T` the value is in fact
indeterminate; no property below depends on it being `default`). -/
def newArray {T : Type} [Inhabited T] (allocOk : Bool) (n : Int) : VM T Ptr := fun s =>
  if allocOk then
    .ok (.loc s.next 0)
      { s with blocks := upd s.blocks s.next (some (List.replicate n.toNat default)),
               next := s.next + 1 }
  else .thrown .badAlloc s

/-- The statement `delete[] p`. -/
def deleteArray {T : Type} (p : Ptr) : VM T Unit := fun s =>
  match p with
  | .null => .ok () s
  | .loc b o =>
    if o = 0 then
      match s.blocks b with
      | some _ => .ok () { s with blocks := upd s.blocks b none }
      | none => .undefined
    else .undefined

/-- Read the data members of the object `this`. -/
def getVec {T : Type} (this : Nat) : VM T VecObj := fun s => .ok (s.vecs this) s

/-- Assign to `this->data`. -/
def setData {T : Type} (this : Nat) (p : Ptr) : VM T Unit := fun s =>
  .ok () { s with vecs := upd s.vecs this { s.vecs this with data := p } }

/-- Assign to `this->numElements`. -/
def setNumElements {T : Type} (this : Nat) (n : Int) : VM T Unit := fun s =>
  .ok () { s with vecs := upd s.vecs this { s.vecs this with numElements := n } }

/-- Assign to `this->numCapacity`. -/
def setNumCapacity {T : Type} (this : Nat) (n : Int) : VM T Unit := fun s =>
  .ok () { s with vecs := upd s.vecs this { s.vecs this with numCapacity := n } }

/-! ## vector: standard container interfaces -/

/-- Source: `void clear() { numElements = 0; }` -/
def clear {T : Type} (this : Nat) : VM T Unit := setNumElements this 0

/-- Source: `int size() const { return numElements; }` -/
def size {T : Type} (this : Nat) : VM T Int := do
  return (← getVec this).numElements

/-- Source: `int capacity() const { return numCapacity; }` -/
def capacity {T : Type} (this : Nat) : VM T Int := do
  return (← getVec this).numCapacity

/-- Source: `bool empty() const { return numElements == 0; }` -/
def empty {T : Type} (this : Nat) : VM T Bool := do
  return decide ((← getVec this).numElements = 0)

/-! ## vector: growth -/

/-- Body of the copy loops: `dst[i] = src[i]`, the two array expressions being
re-evaluated at every iteration. -/
def copySlot {T : Type} (dst src : VM T Ptr) (i : Int) : VM T Unit := do
  let v ← load ((← src).add i)
  store ((← dst).add i) v

/-- The expression `this->data`. -/
def dataOf {T : Type} (this : Nat) : VM T Ptr := do
  return (← getVec this).data

/-- Source: `~vector() { clear(); delete [] data; }` -/
def vector_destroy {T : Type} (this : Nat) : VM T Unit := do
  clear this
  deleteArray (← dataOf this)

/-- Source: `void vector<T>::resize(int newCapacity)` -/
def resize {T : Type} [Inhabited T] (allocOk : Bool) (this : Nat) (newCapacity : Int) :
    VM T Unit := do
  cassert (decide (newCapacity > 0) && decide (newCapacity > (← getVec this).numCapacity))
  let arrayNew ← tryCatchExn (newArray allocOk newCapacity) (fun e =>
    match e with
    | .badAlloc => throwExn .unableToAllocate
    | e => throwExn e)
  forLoop (copySlot (pure arrayNew) (dataOf this)) (← getVec this).numElements.toNat 0
  if (← dataOf this) ≠ Ptr.null then
    deleteArray (← dataOf this)
  setData this arrayNew
  setNumCapacity this newCapacity

/-- Source: `void vector<T>::resize(int newCapacity, T & t)`; the fill value is taken
by value. -/
def resizeFill {T : Type} [Inhabited T] (allocOk : Bool) (this : Nat) (newCapacity : Int)
    (t : T) : VM T Unit := do
  cassert (decide (newCapacity > 0) && decide (newCapacity > newCapacity))
  let arrayNew ← tryCatchExn (newArray allocOk newCapacity) (fun e =>
    match e with
    | .badAlloc => throwExn .unableToAllocate
    | e => throwExn e)
  forLoop (copySlot (pure arrayNew) (dataOf this)) (← getVec this).numElements.toNat 0
  let v ← getVec this
  forLoop (fun i => store (arrayNew.add i) t) (v.numCapacity - v.numElements).toNat
    v.numElements
  if (← dataOf this) ≠ Ptr.null then
    deleteArray (← dataOf this)
  setData this arrayNew
  setNumCapacity this newCapacity

/-! ## vector: constructors -/

/-- Source: `vector() : numElements(0), numCapacity(0), data(NULL) {}` -/
def vector_default {T : Type} (this : Nat) : VM T Unit := fun s =>
  .ok () { s with vecs := upd s.vecs this ⟨Ptr.null, 0, 0⟩ }

/-- Source: `vector<T>::vector(int requestNum)` -/
def vector_sized {T : Type} [Inhabited T] (allocOk : Bool) (this : Nat) (requestNum : Int) :
    VM T Unit := do
  vector_default this
  cassert (decide (requestNum ≥ 0))
  if requestNum > 0 then
    resize allocOk this requestNum
    setNumElements this requestNum

/-- Source: `vector<T>::vector(int requestNum, T & t)`; the fill value is taken by
value. -/
def vector_fill {T : Type} [Inhabited T] (allocOk : Bool) (this : Nat) (requestNum : Int)
    (t : T) : VM T Unit := do
  vector_default this
  cassert (decide (requestNum ≥ 0))
  if requestNum > 0 then
    resizeFill allocOk this requestNum t
    setNumElements this requestNum

/-! ## vector: access, assignment, push_back -/

/-- The lvalue `data[index]`: the address of the slot, which must exist. -/
def slotRef {T : Type} (this : Nat) (index : Int) : VM T Ptr := do
  let p := (← dataOf this).add index
  let _ ← load p
  return p

/-- Source: `T & vector<T>::operator[](int index)`: the result is the reference. -/
def index_rw {T : Type} (this : Nat) (index : Int) : VM T Ptr := do
  let n ← size this
  if index > 0 ∨ index < n then
    slotRef this index
  else
    throwExn .invalidIndex

/-- Source: `T vector<T>::operator[](int index) const`: the result is a copy. -/
def index_ro {T : Type} (this : Nat) (index : Int) : VM T T := do
  let n ← size this
  if index > 0 ∨ index < n then
    load ((← dataOf this).add index)
  else
    throwExn .invalidIndex

/-- The statement `v[index] = x` through the read/write `operator[]`. -/
def index_write {T : Type} (this : Nat) (index : Int) (x : T) : VM T Unit := do
  let r ← index_rw this index
  store r x

/-- Source: `vector<T> & vector<T>::operator=(const vector<T> & rhs)`; `rhs` may be
the object `this` itself, every read of `rhs` goes to the current state. -/
def assign {T : Type} [Inhabited T] (allocOk : Bool) (this rhs : Nat) : VM T Unit := do
  setNumElements this 0
  if (← capacity this) < (← size rhs) then
    resize allocOk this (← size rhs)
  setNumElements this (← size rhs)
  forLoop (copySlot (dataOf this) (dataOf rhs)) (← getVec this).numElements.toNat 0

/-- Source: `vector<T>::vector(const vector<T> & rhs)` -/
def vector_copy {T : Type} [Inhabited T] (allocOk : Bool) (this rhs : Nat) : VM T Unit := do
  vector_default this
  if !(← empty rhs) then
    assign allocOk this rhs

/-- An argument bound to a reference parameter `const T &`: an object outside
the free store (a temporary or a variable) holding `v`, which the callee does
not change, or a slot of a heap array, such as the `v[0]` of
`v.push_back(v[0])`. -/
inductive Arg (T : Type) where
  | val (v : T) : Arg T
  | slot (p : Ptr) : Arg T

/-- Read through a reference parameter. -/
def readArg {T : Type} : Arg T → VM T T
  | .val v => pure v
  | .slot p => load p

/-- Source: `void vector<T>::push_back(const T & t)`.  The parameter is a
reference: it is read in the last statement `data[numElements++] = t`, after
`resize` has released the old buffer.  In that statement the increment is a
side effect of the left operand, which is sequenced before the assignment
itself. -/
def push_back {T : Type} [Inhabited T] (allocOk : Bool) (this : Nat) (t : Arg T) :
    VM T Unit := do
  if (← capacity this) = 0 then
    resize allocOk this 1
  else if (← capacity this) = (← size this) then
    resize allocOk this (wrapInt ((← capacity this) * 2))
  else
    cassert (decide ((← capacity this) > (← size this)))
  let n := (← getVec this).numElements
  let p := (← dataOf this).add n
  setNumElements this (wrapInt (n + 1))
  store p (← readArg t)

/-! ## vector: iterators -/

/-- The nested `class vector<T>::iterator`, whose only data member is `T * p`. -/
structure iterator where
  p : Ptr
deriving DecidableEq

/-- Source: `iterator() : p(NULL) {}` -/
def iterator.null : iterator := ⟨Ptr.null⟩

/-- Source: `bool operator != (const iterator & rhs) const { return rhs.p != this->p; }` -/
def iterator.ne (this rhs : iterator) : Bool := decide (rhs.p ≠ this.p)

/-- Source: `bool operator == (const iterator & rhs) const { return rhs.p == this->p; }` -/
def iterator.eq (this rhs : iterator) : Bool := decide (rhs.p = this.p)

/-- Source: `T & operator * () { return *p; }`, read through. -/
def iterator.deref {T : Type} (this : iterator) : VM T T := load this.p

/-- Prefix `++`: `p++; return *this;` (the cursor after the call). -/
def iterator.preInc (this : iterator) : iterator := ⟨this.p.add 1⟩

/-- Postfix `++`: `iterator tmp(*this); p++; return tmp;` as the pair of the
cursor after the call and the returned value. -/
def iterator.postInc (this : iterator) : iterator × iterator := (⟨this.p.add 1⟩, this)

/-- Prefix `--`: `p--; return *this;` (the cursor after the call). -/
def iterator.preDec (this : iterator) : iterator := ⟨this.p.add (-1)⟩

/-- Postfix `--`: `iterator tmp(*this); p--; return tmp;` as the pair of the
cursor after the call and the returned value. -/
def iterator.postDec (this : iterator) : iterator × iterator := (⟨this.p.add (-1)⟩, this)

/-- Source: `iterator begin() { return iterator (data); }` -/
def begin {T : Type} (this : Nat) : VM T iterator := do
  return ⟨← dataOf this⟩

/-- Source: `iterator end() { return iterator(data + numElements); }` -/
def end_ {T : Type} (this : Nat) : VM T iterator := do
  let d ← dataOf this
  let n ← size this
  return ⟨d.add n⟩

/-- The nested `class vector<T>::const_iterator`, whose only data member is `T * p`. -/
structure const_iterator where
  p : Ptr
deriving DecidableEq

/-- Source: `bool operator != (const const_iterator & rhs) const` -/
def const_iterator.ne (this rhs : const_iterator) : Bool := decide (rhs.p ≠ this.p)

/-- Source: `bool operator == (const const_iterator & rhs) const` -/
def const_iterator.eq (this rhs : const_iterator) : Bool := decide (rhs.p = this.p)

/-- Source: `const T & operator * () const { return *p; }`, read through. -/
def const_iterator.deref {T : Type} (this : const_iterator) : VM T T := load this.p

/-- Prefix `++` of `const_iterator`. -/
def const_iterator.preInc (this : const_iterator) : const_iterator := ⟨this.p.add 1⟩

/-- Prefix `--` of `const_iterator`. -/
def const_iterator.preDec (this : const_iterator) : const_iterator := ⟨this.p.add (-1)⟩

/-- Source: `const_iterator cbegin() const { return const_iterator (data); }` -/
def cbegin {T : Type} (this : Nat) : VM T const_iterator := do
  return ⟨← dataOf this⟩

/-- Source: `const_iterator cend() const { return const_iterator (data + numElements); }` -/
def cend {T : Type} (this : Nat) : VM T const_iterator := do
  let d ← dataOf this
  let n ← size this
  return ⟨d.add n⟩

/-! ## Observations and the representation invariant -/

/-- The array a pointer points into (empty for `NULL` or a released block). -/
def cellsAt {T : Type} (s : State T) (p : Ptr) : List T :=
  match p with
  | .null => []
  | .loc b _ => (s.blocks b).getD []

/-- The logical contents of vector `i`: the first `numElements` slots of its
buffer. -/
def contents {T : Type} (s : State T) (i : Nat) : List T :=
  (cellsAt s (s.vecs i).data).take (s.vecs i).numElements.toNat

/-- The buffer described by `p` and `cap`: no allocation when `cap` is 0,
otherwise a live array of exactly `cap` slots, addressed at its first slot. -/
def OwnsBuffer {T : Type} (s : State T) (p : Ptr) (cap : Int) : Prop :=
  match p with
  | .null => cap = 0
  | .loc b o =>
    o = 0 ∧ b < s.next ∧ 0 < cap ∧
      (s.blocks b).map (fun c => (c.length : Int)) = some cap

instance {T : Type} (s : State T) (p : Ptr) (cap : Int) : Decidable (OwnsBuffer s p cap) :=
  match p with
  | .null => inferInstanceAs (Decidable (cap = 0))
  | .loc b o => inferInstanceAs (Decidable (o = 0 ∧ b < s.next ∧ 0 < cap ∧
      (s.blocks b).map (fun c => (c.length : Int)) = some cap))

/-- Representation invariant of vector `i`: `0 <= numElements <= numCapacity`,
the capacity is an `int`, and `data` is a buffer of `numCapacity` slots. -/
def Inv {T : Type} (s : State T) (i : Nat) : Prop :=
  0 ≤ (s.vecs i).numElements ∧ (s.vecs i).numElements ≤ (s.vecs i).numCapacity ∧
    (s.vecs i).numCapacity ≤ INT_MAX ∧ OwnsBuffer s (s.vecs i).data (s.vecs i).numCapacity

instance {T : Type} (s : State T) (i : Nat) : Decidable (Inv s i) :=
  inferInstanceAs (Decidable (_ ∧ _ ∧ _ ∧ _))

/-- Exclusive ownership: vectors `i` and `j` do not point into the same
array. -/
def Separate {T : Type} (s : State T) (i j : Nat) : Prop :=
  match (s.vecs i).data, (s.vecs j).data with
  | .loc b _, .loc c _ => b ≠ c
  | _, _ => True

instance {T : Type} (s : State T) (i j : Nat) : Decidable (Separate s i j) := by
  unfold Separate
  cases (s.vecs i).data <;> cases (s.vecs j).data <;> infer_instance

/-- The block a pointer points into, if any. -/
def blockOf (p : Ptr) : Option Nat :=
  match p with
  | .null => none
  | .loc b _ => some b

/-- The heap array an argument refers into, if any. -/
def argBlock {T : Type} : Arg T → Option Nat
  | .val _ => none
  | .slot p => blockOf p

/-- The value read through an argument in state `s`, if the read is
defined. -/
def argValue {T : Type} (s : State T) (t : Arg T) : Option T :=
  match readArg t s with
  | .ok v _ => some v
  | _ => none

/-- Footprint of a member function run on vector `this` from `s` to `t`: only
the object `this`, its own buffer and arrays allocated meanwhile may differ,
and `this->data` is the old pointer or the start of a newly allocated array. -/
def Frame {T : Type} (this : Nat) (s t : State T) : Prop :=
  s.next ≤ t.next ∧
  (∀ j, j ≠ this → t.vecs j = s.vecs j) ∧
  (∀ b, b < s.next → blockOf (s.vecs this).data ≠ some b → t.blocks b = s.blocks b) ∧
  ((t.vecs this).data = (s.vecs this).data ∨
    ∃ b, s.next ≤ b ∧ (t.vecs this).data = .loc b 0)


/-! ## States reached by the member functions -/

/-- The block table after `delete[] p`. -/
def release {T : Type} (blocks : Nat → Option (List T)) (p : Ptr) : Nat → Option (List T) :=
  match p with
  | .null => blocks
  | .loc b _ => upd blocks b none

/-- The state a successful `resize(newCapacity)` of vector `this` leads to. -/
def resized {T : Type} [Inhabited T] (s : State T) (this : Nat) (newCapacity : Int) : State T :=
  { blocks := release
      (upd s.blocks s.next (some (contents s this ++
        List.replicate (newCapacity.toNat - (s.vecs this).numElements.toNat) default)))
      (s.vecs this).data,
    next := s.next + 1,
    vecs := upd s.vecs this ⟨.loc s.next 0, (s.vecs this).numElements, newCapacity⟩ }


/-- The state after the last statement of `push_back`,
`data[numElements++] = t`, run from `g`. -/
def appended {T : Type} (g : State T) (this : Nat) (t : T) : State T :=
  { g with
    blocks :=
      match (g.vecs this).data with
      | .null => g.blocks
      | .loc b _ => upd g.blocks b
          (some ((cellsAt g (g.vecs this).data).set (g.vecs this).numElements.toNat t)),
    vecs := upd g.vecs this
      { g.vecs this with numElements := wrapInt ((g.vecs this).numElements + 1) } }


/-- The value stored at a pointer in a block table, if it points at a slot of
a live array. -/
def peek {T : Type} (blocks : Nat → Option (List T)) : Ptr → Option T
  | .null => none
  | .loc b o =>
    match blocks b with
    | none => none
    | some cells => if 0 ≤ o then cells[o.toNat]? else none

/-- The result of the last statement of `push_back`,
`data[numElements++] = t`, run from `g`: the argument is read in `g`, and
reading a slot that is not live is undefined. -/
def pushEnd {T : Type} (g : State T) (this : Nat) (t : Arg T) : Res T Unit :=
  match argValue g t with
  | some v => .ok () (appended g this v)
  | none => .undefined

/-- The state after `this->numElements = n`. -/
def withSize {T : Type} (s : State T) (this : Nat) (n : Int) : State T :=
  { s with vecs := upd s.vecs this { s.vecs this with numElements := n } }

/-- The state after the last two statements of `operator=` run from `g`:
`numElements = rhs.size()` and the element-wise copy from `rhs`, for a
source `rhs` other than the destination. -/
def copied {T : Type} (g : State T) (this rhs : Nat) : State T :=
  { g with
    blocks :=
      match (g.vecs this).data with
      | .null => g.blocks
      | .loc b _ => upd g.blocks b
          (some ((cellsAt g (g.vecs rhs).data).take (g.vecs rhs).numElements.toNat ++
            (cellsAt g (g.vecs this).data).drop (g.vecs rhs).numElements.toNat)),
    vecs := upd g.vecs this { g.vecs this with numElements := (g.vecs rhs).numElements } }


/-- The state after `data[k] = x` on the buffer of vector `this`. -/
def putSlot {T : Type} (s : State T) (this : Nat) (k : Nat) (x : T) : State T :=
  { s with
    blocks :=
      match (s.vecs this).data with
      | .null => s.blocks
      | .loc b _ => upd s.blocks b (some ((cellsAt s (s.vecs this).data).set k x)) }

/-- The state after the member initialisers
`numElements(0), numCapacity(0), data(NULL)` of a constructor. -/
def fresh {T : Type} (s : State T) (this : Nat) : State T :=
  { s with vecs := upd s.vecs this ⟨Ptr.null, 0, 0⟩ }

/-! ## Client code used to state the properties -/

/-- The loop `for (; it != stop; ++it) visit(*it);` run for at most `fuel`
iterations: the values visited, or `none` when the loop has not finished. -/
def forwardFrom {T : Type} (stop : iterator) : Nat → iterator → VM T (Option (List T))
  | fuel, it =>
    if it.ne stop then
      match fuel with
      | 0 => pure none
      | f + 1 => do
        let v ← it.deref
        let rest ← forwardFrom stop f it.preInc
        return rest.map (fun vs => v :: vs)
    else pure (some [])

/-- The client loop `for (it = v.begin(); it != v.end(); ++it) visit(*it);` -/
def walkForward {T : Type} (fuel : Nat) (this : Nat) : VM T (Option (List T)) := do
  let stop ← end_ this
  let it ← begin this
  forwardFrom stop fuel it

/-- The same loop over `const_iterator`. -/
def cforwardFrom {T : Type} (stop : const_iterator) :
    Nat → const_iterator → VM T (Option (List T))
  | fuel, it =>
    if it.ne stop then
      match fuel with
      | 0 => pure none
      | f + 1 => do
        let v ← it.deref
        let rest ← cforwardFrom stop f it.preInc
        return rest.map (fun vs => v :: vs)
    else pure (some [])

/-- The client loop `for (it = v.cbegin(); it != v.cend(); ++it) visit(*it);` -/
def cwalkForward {T : Type} (fuel : Nat) (this : Nat) : VM T (Option (List T)) := do
  let stop ← cend this
  let it ← cbegin this
  cforwardFrom stop fuel it

/-- The loop `for (;;) { visit(*it); if (it == first) break; --it; }` run for
at most `fuel` iterations. -/
def backwardFrom {T : Type} (first : iterator) : Nat → iterator → VM T (Option (List T))
  | 0, _ => pure none
  | f + 1, it => do
    let v ← it.deref
    if it.eq first then
      return some [v]
    else
      let rest ← backwardFrom first f it.preDec
      return rest.map (fun vs => v :: vs)

/-- The client loop `it = v.end(); --it;` followed by the backward loop down to `v.begin()`. -/
def walkBackward {T : Type} (fuel : Nat) (this : Nat) : VM T (Option (List T)) := do
  let first ← begin this
  let it ← end_ this
  backwardFrom first fuel it.preDec

/-- Consecutive calls `push_back(v)` for the values of a list, each argument
an object outside the free store. -/
def push_all {T : Type} [Inhabited T] (allocOk : Bool) (this : Nat) : List T → VM T Unit
  | [] => pure ()
  | v :: vs => VM.bind (push_back allocOk this (.val v)) (fun _ => push_all allocOk this vs)

/-- A call a client program makes on its vector objects; `allocOk` says
whether an allocation made during the call can be satisfied. -/
inductive Call (T : Type) where
  | ctorDefault (this : Nat) : Call T
  | ctorSized (allocOk : Bool) (this : Nat) (requestNum : Int) : Call T
  | ctorFill (allocOk : Bool) (this : Nat) (requestNum : Int) (t : T) : Call T
  | ctorCopy (allocOk : Bool) (this rhs : Nat) : Call T
  | pushBack (allocOk : Bool) (this : Nat) (t : Arg T) : Call T
  | clear (this : Nat) : Call T
  | assign (allocOk : Bool) (this rhs : Nat) : Call T
  | write (this : Nat) (index : Int) (x : T) : Call T

/-- The code a call runs. -/
def Call.run {T : Type} [Inhabited T] : Call T → VM T Unit
  | .ctorDefault this => vector_default this
  | .ctorSized ok this r => vector_sized ok this r
  | .ctorFill ok this r t => vector_fill ok this r t
  | .ctorCopy ok this rhs => vector_copy ok this rhs
  | .pushBack ok this t => push_back ok this t
  | .clear this => custom.clear this
  | .assign ok this rhs => custom.assign ok this rhs
  | .write this i x => index_write this i x

/-- Whether `x` is a value of type `int`. -/
def isInt (x : Int) : Bool := decide (-2147483648 ≤ x) && decide (x ≤ INT_MAX)

/-- A call is well formed when a constructor runs on an object not yet
constructed, a member function on a constructed one, object arguments are
constructed, and `int` arguments are values of `int`. -/
def Call.wellFormed {T : Type} (live : List Nat) : Call T → Bool
  | .ctorDefault this => decide (this ∉ live)
  | .ctorSized _ this r => decide (this ∉ live) && isInt r
  | .ctorFill _ this r _ => decide (this ∉ live) && isInt r
  | .ctorCopy _ this rhs => decide (this ∉ live) && decide (rhs ∈ live)
  | .pushBack _ this _ => decide (this ∈ live)
  | .clear this => decide (this ∈ live)
  | .assign _ this rhs => decide (this ∈ live) && decide (rhs ∈ live)
  | .write this i _ => decide (this ∈ live) && isInt i

/-- The objects constructed once the call has returned. -/
def Call.liveAfter {T : Type} (live : List Nat) : Call T → List Nat
  | .ctorDefault this => this :: live
  | .ctorSized _ this _ => this :: live
  | .ctorFill _ this _ _ => this :: live
  | .ctorCopy _ this _ => this :: live
  | _ => live

/-- A client program in execution: the state and the objects constructed. -/
structure Prog (T : Type) where
  st : State T
  live : List Nat

/-- One successful call: a well formed call that terminates normally. -/
def exec {T : Type} [Inhabited T] (p : Prog T) (c : Call T) : Option (Prog T) :=
  if c.wellFormed p.live then
    match c.run p.st with
    | .ok _ s => some ⟨s, c.liveAfter p.live⟩
    | _ => none
  else none

/-- A finite sequence of successful calls. -/
def execAll {T : Type} [Inhabited T] : Prog T → List (Call T) → Option (Prog T)
  | p, [] => some p
  | p, c :: cs =>
    match exec p c with
    | some q => execAll q cs
    | none => none


/-- Invariant of a client program: every constructed vector satisfies the
representation invariant and no two of them share a buffer. -/
def Good {T : Type} (p : Prog T) : Prop :=
  (∀ i ∈ p.live, Inv p.st i) ∧
  (∀ i ∈ p.live, ∀ j ∈ p.live, i ≠ j → Separate p.st i j)


/-- The capacity `push_back` leaves, from size `n` and capacity `c` (the
growth policy read off its three branches). -/
def growCap (n c : Int) : Int :=
  if c = 0 then 1 else if c = n then c * 2 else c

/-- The capacity after `m` calls of `push_back` on a default-constructed
vector, by the growth policy. -/
def capSeq : Nat → Int
  | 0 => 0
  | m + 1 => growCap m (capSeq m)

/-- A default-constructed vector followed by `push_back` of each value. -/
def pushRun {T : Type} [Inhabited T] (this : Nat) (vals : List T) : VM T Unit :=
  VM.bind (vector_default this) (fun _ => push_all true this vals)

/-- The state the code `m` leads to from `s` when it terminates normally
(`s` itself otherwise). -/
def stateAfter {T α : Type} (m : VM T α) (s : State T) : State T :=
  match m s with
  | .ok _ t => t
  | _ => s

/-- Whether a result is normal termination. -/
def Res.isOk {T α : Type} : Res T α → Bool
  | .ok _ _ => true
  | _ => false

/-! ## Cost of growth -/

/-- Number of element copies one call of `resize` makes from `s`: the trip
count of its loop `for (int i = 0; i < numElements; i++) arrayNew[i] = data[i];`,
whose bound `numElements` is not written before or inside the loop. -/
def resizeCopies {T : Type} (s : State T) (this : Nat) : Nat :=
  (s.vecs this).numElements.toNat

/-- Number of element copies the growth of one call of `push_back` makes from
`s`: `resize` is called in the first two branches and not in the third. -/
def pushCopies {T : Type} (s : State T) (this : Nat) : Nat :=
  if (s.vecs this).numCapacity = 0 then resizeCopies s this
  else if (s.vecs this).numCapacity = (s.vecs this).numElements then resizeCopies s this
  else 0

/-- Total number of element copies made by growth over consecutive calls
`push_back(v)` for the values of a list, each call counted in the state the
previous one has led to. -/
def pushAllCopies {T : Type} [Inhabited T] (this : Nat) : List T → State T → Nat
  | [], _ => 0
  | v :: vs, s =>
    pushCopies s this + pushAllCopies this vs (stateAfter (push_back true this (.val v)) s)

/-- Total number of element copies made by growth in `pushRun`. -/
def pushRunCopies {T : Type} [Inhabited T] (this : Nat) (vals : List T) (s : State T) : Nat :=
  pushAllCopies this vals (stateAfter (vector_default this) s)

/-- Closed form of the total after `m` calls: one less than the capacity
reached, 0 before the first call. -/
def copiesUpTo (m : Nat) : Int :=
  if m = 0 then 0 else capSeq m - 1

/-! ## Concrete inputs -/

/-- A state with nothing allocated and no object constructed. -/
def emptyState : State Int := ⟨fun _ => none, 0, fun _ => ⟨Ptr.null, 0, 0⟩⟩

/-- A short client program: construct a vector, append to it twice. -/
def demoCalls : List (Call Int) :=
  [.ctorDefault 0, .pushBack true 0 (.val 1), .pushBack true 0 (.val 2)]

/-- The program `demoCalls` after its last call. -/
def demoProg : Prog Int := (execAll ⟨emptyState, []⟩ demoCalls).getD ⟨emptyState, []⟩

/-- A full vector `[1, 2]` with capacity 2, as object 0. -/
def fullState : State Int :=
  ⟨fun b => if b = 0 then some [1, 2] else none, 1,
   fun i => if i = 0 then ⟨Ptr.loc 0 0, 2, 2⟩ else ⟨Ptr.null, 0, 0⟩⟩

/-- The vector `[1, 2, 3]` as object 0, built by three calls of `push_back`
on a default-constructed vector. -/
def vec3State : State Int := stateAfter (pushRun 0 [1, 2, 3]) emptyState

/-- Two vectors: object 0 is `[1, 2, 3]` with capacity 4, object 1 is `[9]`
with capacity 1. -/
def twoVecState : State Int :=
  ⟨fun b => if b = 0 then some [1, 2, 3, 0] else if b = 1 then some [9] else none, 2,
   fun i => if i = 0 then ⟨Ptr.loc 0 0, 3, 4⟩ else if i = 1 then ⟨Ptr.loc 1 0, 1, 1⟩
     else ⟨Ptr.null, 0, 0⟩⟩

/-! # Theorems -/

/-! ## Stores and the copy loop -/

theorem upd_same {β : Type} (f : Nat → β) (a : Nat) (v : β) : upd f a v a = v := by
  simp [upd]

theorem upd_other {β : Type} (f : Nat → β) (a x : Nat) (v : β) (h : x ≠ a) :
    upd f a v x = f x := by
  simp [upd, h]

theorem upd_upd {β : Type} (f : Nat → β) (a : Nat) (v w : β) :
    upd (upd f a v) a w = upd f a w := by
  funext x; by_cases h : x = a <;> simp [upd, h]

theorem upd_self {β : Type} (f : Nat → β) (a : Nat) : upd f a (f a) = f := by
  funext x; by_cases h : x = a <;> simp [upd, h]

/-- The copy loop between two distinct live arrays: after `k` iterations from
index `i`, slots `i .. i+k-1` of the destination hold the source's values. -/
theorem forLoop_copySlot {T : Type} (dst src : VM T Ptr) (a b : Nat) (hab : a ≠ b) (vs : Nat → VecObj)
    (ca : List T)
    (hdst : ∀ s : State T, s.vecs = vs → dst s = .ok (.loc b 0) s)
    (hsrc : ∀ s : State T, s.vecs = vs → src s = .ok (.loc a 0) s) :
    ∀ (k i : Nat) (s : State T) (P R : List T), s.vecs = vs → s.blocks a = some ca →
      s.blocks b = some (P ++ R) → P.length = i → k ≤ R.length → i + k ≤ ca.length →
      forLoop (copySlot dst src) k (i : Int) s
        = .ok () { s with blocks := upd s.blocks b (some (P ++ (ca.drop i).take k ++ R.drop k)) } := by
  intro k
  induction k with
  | zero =>
    intro i s P R _ _ hb _ _ _
    simp [forLoop, pure, ← hb, upd_self]
  | succ k ih =>
    intro i s P R hvs ha hb hP hk hik
    have hia : i < ca.length := by omega
    obtain ⟨r, R1, rfl⟩ : ∃ r R1, R = r :: R1 := by
      cases R with
      | nil => simp at hk
      | cons r R1 => exact ⟨r, R1, rfl⟩
    have hstep : copySlot dst src (i : Int) s
        = .ok () { s with blocks := upd s.blocks b (some ((P ++ [ca[i]]) ++ R1)) } := by
      simp [copySlot, bind, VM.bind, hsrc s hvs, hdst s hvs, load, store, Ptr.add, ha, hb, hia,
        hP, List.set_append_right]
    have h1 := ih (i + 1) { s with blocks := upd s.blocks b (some ((P ++ [ca[i]]) ++ R1)) }
      (P ++ [ca[i]]) R1 hvs (by simp [upd, hab, ha]) (by simp [upd]) (by simp [hP])
      (by simpa using hk) (by omega)
    simp only [forLoop, VM.bind, hstep]
    rw [show ((i : Int) + 1) = ((i + 1 : Nat) : Int) by push_cast; rfl, h1]
    rw [List.drop_eq_getElem_cons hia]
    simp only [upd_upd, List.take_succ_cons, List.drop_succ_cons, List.append_assoc,
      List.singleton_append]

/-! ## Growth: `resize` and `push_back` -/

theorem VM.pure_apply {T α : Type} (a : α) (s : State T) : (pure a : VM T α) s = .ok a s := rfl

theorem VM.bind_apply {T α β : Type} (m : VM T α) (f : α → VM T β) (s : State T) :
    (m >>= f) s = VM.bind m f s := rfl

theorem resize_spec {T : Type} [Inhabited T] (s : State T) (this : Nat) (newCapacity : Int)
    (hinv : Inv s this) (hgt : (s.vecs this).numCapacity < newCapacity) :
    resize true this newCapacity s = .ok () (resized s this newCapacity) := by
  obtain ⟨h0, hle, hmax, hbuf⟩ := hinv
  have hpos : 0 < newCapacity := by omega
  cases hd : (s.vecs this).data with
  | null =>
    rw [hd] at hbuf
    simp only [OwnsBuffer] at hbuf
    have hn : (s.vecs this).numElements = 0 := by omega
    simp [resize, VM.bind_apply, VM.bind, capacity, size, getVec, VM.pure_apply, cassert, hpos, hgt, tryCatchExn,
      newArray, hn, forLoop, dataOf, hd, setData, setNumCapacity, resized, release, contents,
      cellsAt, upd_upd, upd_same]
  | loc a o =>
    rw [hd] at hbuf
    obtain ⟨ho, hlt, hcpos, hblk⟩ := hbuf
    subst ho
    obtain ⟨ca, hca, hlen⟩ : ∃ ca, s.blocks a = some ca ∧
        (ca.length : Int) = (s.vecs this).numCapacity := by
      cases hb : s.blocks a with
      | none => rw [hb] at hblk; simp at hblk
      | some ca => rw [hb] at hblk; exact ⟨ca, rfl, by simpa using hblk⟩
    have hne : a ≠ s.next := by omega
    have hloop := forLoop_copySlot (T := T) (pure (Ptr.loc s.next 0)) (dataOf this) a s.next hne
      s.vecs ca (fun _ _ => rfl) (fun s1 h1 => by simp [dataOf, VM.bind_apply, VM.bind, getVec, VM.pure_apply, h1, hd])
      (s.vecs this).numElements.toNat 0
      { s with blocks := upd s.blocks s.next (some (List.replicate newCapacity.toNat default)),
               next := s.next + 1 }
      [] (List.replicate newCapacity.toNat default) rfl (by simp [upd, hne, hca]) (by simp [upd])
      rfl (by simp; omega) (by omega)
    simp only [Nat.cast_zero] at hloop
    simp [resize, VM.bind_apply, VM.bind, capacity, size, getVec, VM.pure_apply, cassert, hpos,
      hgt, tryCatchExn, newArray, hloop]
    simp [dataOf, VM.bind_apply, VM.bind, getVec, VM.pure_apply, hd, deleteArray, upd_upd,
      upd_other _ _ _ _ hne, hca, setData, setNumCapacity, resized, release, contents, cellsAt,
      upd_same]

theorem Inv.block {T : Type} {s : State T} {i : Nat} (h : Inv s i) {b : Nat} {o : Int}
    (hd : (s.vecs i).data = .loc b o) :
    o = 0 ∧ b < s.next ∧ ∃ ca, s.blocks b = some ca ∧ (ca.length : Int) = (s.vecs i).numCapacity := by
  obtain ⟨_, _, _, hbuf⟩ := h
  rw [hd] at hbuf
  obtain ⟨ho, hlt, _, hblk⟩ := hbuf
  refine ⟨ho, hlt, ?_⟩
  cases hb : s.blocks b with
  | none => rw [hb] at hblk; simp at hblk
  | some ca => rw [hb] at hblk; exact ⟨ca, rfl, by simpa using hblk⟩

theorem Inv.cells_length {T : Type} {s : State T} {i : Nat} (h : Inv s i) :
    ((cellsAt s (s.vecs i).data).length : Int) = (s.vecs i).numCapacity := by
  cases hd : (s.vecs i).data with
  | null =>
    obtain ⟨_, _, _, hbuf⟩ := h
    rw [hd] at hbuf
    simp only [OwnsBuffer] at hbuf
    simp [cellsAt, hbuf]
  | loc b o =>
    obtain ⟨_, _, ca, hca, hlen⟩ := h.block hd
    simp [cellsAt, hca, hlen]

theorem Inv.contents_length {T : Type} {s : State T} {i : Nat} (h : Inv s i) :
    (contents s i).length = (s.vecs i).numElements.toNat := by
  have h1 := h.cells_length
  obtain ⟨h0, hle, _, _⟩ := h
  simp only [contents, List.length_take]
  omega

theorem resized_vec_this {T : Type} [Inhabited T] (s : State T) (this : Nat) (c : Int) :
    (resized s this c).vecs this = ⟨.loc s.next 0, (s.vecs this).numElements, c⟩ := by
  simp [resized, upd_same]

theorem resized_vec_other {T : Type} [Inhabited T] (s : State T) (this j : Nat) (c : Int)
    (h : j ≠ this) : (resized s this c).vecs j = s.vecs j := by
  simp [resized, upd_other _ _ _ _ h]

theorem resized_block_new {T : Type} [Inhabited T] (s : State T) (this : Nat) (c : Int)
    (h : Inv s this) :
    (resized s this c).blocks s.next = some (contents s this ++
        List.replicate (c.toNat - (s.vecs this).numElements.toNat) default) := by
  cases hd : (s.vecs this).data with
  | null => simp [resized, release, hd, upd_same]
  | loc b o =>
    obtain ⟨_, hlt, _⟩ := h.block hd
    have hne : s.next ≠ b := by omega
    simp [resized, release, hd, upd_same, upd_other _ _ _ _ hne]

theorem resized_block_other {T : Type} [Inhabited T] (s : State T) (this : Nat) (c : Int)
    (b : Nat) (hb : b ≠ s.next) (hown : blockOf (s.vecs this).data ≠ some b) :
    (resized s this c).blocks b = s.blocks b := by
  cases hd : (s.vecs this).data with
  | null => simp [resized, release, hd, upd_other _ _ _ _ hb]
  | loc a o =>
    have hne : b ≠ a := by
      intro h; apply hown; simp [hd, blockOf, h]
    simp [resized, release, hd, upd_other _ _ _ _ hb, upd_other _ _ _ _ hne]

theorem resized_contents {T : Type} [Inhabited T] (s : State T) (this : Nat) (c : Int)
    (h : Inv s this) : contents (resized s this c) this = contents s this := by
  have hlen := h.contents_length
  have e : contents (resized s this c) this = (contents s this ++ List.replicate
      (c.toNat - (s.vecs this).numElements.toNat) default).take (s.vecs this).numElements.toNat := by
    rw [contents]
    simp only [resized_vec_this, cellsAt, resized_block_new s this c h, Option.getD_some]
  rw [e, List.take_append_of_le_length (by omega)]
  exact List.take_of_length_le (by omega)

theorem resized_inv {T : Type} [Inhabited T] (s : State T) (this : Nat) (c : Int)
    (h : Inv s this) (hc : (s.vecs this).numCapacity < c) (hmax : c ≤ INT_MAX) :
    Inv (resized s this c) this := by
  have hlen := h.contents_length
  have hblk := resized_block_new s this c h
  obtain ⟨h0, hle, _, _⟩ := h
  refine ⟨?_, ?_, ?_, ?_⟩
  · simp [resized_vec_this, h0]
  · simp only [resized_vec_this]; omega
  · simp [resized_vec_this, hmax]
  · simp only [resized_vec_this, OwnsBuffer, hblk]
    refine ⟨trivial, by simp [resized], by omega, ?_⟩
    simp [hlen]
    omega

theorem resized_frame {T : Type} [Inhabited T] (s : State T) (this : Nat) (c : Int) :
    Frame this s (resized s this c) := by
  refine ⟨by simp [resized], fun j hj => resized_vec_other s this j c hj, ?_, ?_⟩
  · intro b hb hown
    exact resized_block_other s this c b (by omega) hown
  · right
    exact ⟨s.next, le_refl _, by simp [resized_vec_this]⟩


theorem wrapInt_of_range (x : Int) (h0 : -2147483648 ≤ x) (h1 : x ≤ INT_MAX) : wrapInt x = x := by
  simp only [wrapInt, INT_MAX] at *
  omega

theorem Inv.data_ne_null {T : Type} {s : State T} {i : Nat} (h : Inv s i)
    (hpos : 0 < (s.vecs i).numCapacity) : ∃ b, (s.vecs i).data = .loc b 0 := by
  cases hd : (s.vecs i).data with
  | null =>
    obtain ⟨_, _, _, hbuf⟩ := h
    rw [hd] at hbuf
    simp only [OwnsBuffer] at hbuf
    omega
  | loc b o =>
    obtain ⟨ho, _⟩ := h.block hd
    exact ⟨b, by rw [ho]⟩

theorem appended_vec_this {T : Type} (g : State T) (this : Nat) (t : T) :
    (appended g this t).vecs this
      = { g.vecs this with numElements := wrapInt ((g.vecs this).numElements + 1) } := by
  simp [appended, upd_same]

theorem appended_cells {T : Type} (g : State T) (this : Nat) (t : T) :
    cellsAt (appended g this t) ((appended g this t).vecs this).data
      = (cellsAt g (g.vecs this).data).set (g.vecs this).numElements.toNat t := by
  rw [appended_vec_this]
  cases hd : (g.vecs this).data with
  | null => simp [cellsAt]
  | loc b o => simp [cellsAt, appended, hd, upd_same]

theorem appended_frame {T : Type} (g : State T) (this : Nat) (t : T) :
    Frame this g (appended g this t) := by
  refine ⟨le_refl _, fun j hj => by simp [appended, upd_other _ _ _ _ hj], ?_, ?_⟩
  · intro b _ hown
    cases hd : (g.vecs this).data with
    | null => simp [appended, hd]
    | loc a o =>
      have hne : b ≠ a := by
        intro h; apply hown; simp [hd, blockOf, h]
      simp [appended, hd, upd_other _ _ _ _ hne]
  · left; simp [appended_vec_this]

theorem appended_inv {T : Type} (g : State T) (this : Nat) (t : T) (h : Inv g this)
    (hlt : (g.vecs this).numElements < (g.vecs this).numCapacity) :
    Inv (appended g this t) this := by
  obtain ⟨b, hd⟩ := h.data_ne_null (by have := h.1; omega)
  obtain ⟨_, hb, ca, hca, hlen⟩ := h.block hd
  obtain ⟨h0, hle, hmax, _⟩ := h
  have hw := wrapInt_of_range ((g.vecs this).numElements + 1) (by omega) (by omega)
  refine ⟨?_, ?_, ?_, ?_⟩
  · simp only [appended_vec_this, hw]; omega
  · simp only [appended_vec_this, hw]; omega
  · simp only [appended_vec_this]; exact hmax
  · simp only [appended_vec_this, hd, OwnsBuffer]
    refine ⟨trivial, by simpa [appended] using hb, by omega, ?_⟩
    simp [appended, hd, upd_same, cellsAt, hca, hlen]

theorem appended_contents {T : Type} (g : State T) (this : Nat) (t : T) (h : Inv g this)
    (hlt : (g.vecs this).numElements < (g.vecs this).numCapacity) :
    contents (appended g this t) this = contents g this ++ [t] := by
  have hcl := h.cells_length
  obtain ⟨h0, hle, hmax, _⟩ := h
  have hw := wrapInt_of_range ((g.vecs this).numElements + 1) (by omega) (by omega)
  have e : contents (appended g this t) this
      = ((cellsAt g (g.vecs this).data).set (g.vecs this).numElements.toNat t).take
          ((g.vecs this).numElements.toNat + 1) := by
    rw [contents, appended_cells, appended_vec_this, hw]
    congr 1
    simp only
    omega
  rw [e, contents, List.take_succ, List.set_take, List.set_eq_of_length_le (by simp),
    List.getElem?_set_self (by omega)]
  rfl

theorem push_back_tail {T : Type} (g : State T) (this : Nat) (t : T) (h : Inv g this)
    (hlt : (g.vecs this).numElements < (g.vecs this).numCapacity) :
    store ((g.vecs this).data.add (g.vecs this).numElements) t
      { g with
        vecs := upd g.vecs this
          { g.vecs this with numElements := wrapInt ((g.vecs this).numElements + 1) } }
      = .ok () (appended g this t) := by
  obtain ⟨b, hd⟩ := h.data_ne_null (by have := h.1; omega)
  obtain ⟨_, hb, ca, hca, hlen⟩ := h.block hd
  obtain ⟨h0, hle, hmax, _⟩ := h
  have hn : (g.vecs this).numElements.toNat < ca.length := by omega
  simp [store, hd, Ptr.add, hca, h0, hn, appended, cellsAt]


theorem resize_alloc_fail {T : Type} [Inhabited T] (s : State T) (this : Nat) (c : Int)
    (hpos : 0 < c) (hgt : (s.vecs this).numCapacity < c) :
    resize false this c s = .thrown .unableToAllocate s := by
  simp [resize, VM.bind_apply, VM.bind, capacity, getVec, VM.pure_apply, cassert, hpos, hgt,
    tryCatchExn, newArray, throwExn]

theorem resize_assert_fail {T : Type} [Inhabited T] (allocOk : Bool) (s : State T) (this : Nat)
    (c : Int) (h : c ≤ 0 ∨ c ≤ (s.vecs this).numCapacity) :
    resize allocOk this c s = .assertFail := by
  have hc : (decide (c > 0) && decide (c > (s.vecs this).numCapacity)) = false := by
    rcases h with h | h
    · simp [h]
    · simp [h]
  simp [resize, VM.bind_apply, VM.bind, capacity, getVec, VM.pure_apply, cassert, hc]

theorem load_peek {T : Type} (p : Ptr) (s : State T) :
    load p s = match peek s.blocks p with
      | some v => .ok v s
      | none => .undefined := by
  cases p with
  | null => rfl
  | loc b o =>
    simp only [load, peek]
    cases s.blocks b with
    | none => rfl
    | some cells =>
      by_cases ho : 0 ≤ o
      · simp only [ho, if_true]
      · simp only [ho, if_false]

theorem argValue_val {T : Type} (s : State T) (v : T) : argValue s (.val v) = some v := rfl

theorem argValue_slot {T : Type} (s : State T) (p : Ptr) :
    argValue s (.slot p) = peek s.blocks p := by
  simp only [argValue, readArg, load_peek]
  cases peek s.blocks p <;> rfl

theorem argValue_blocks {T : Type} (s g : State T) (t : Arg T) (h : g.blocks = s.blocks) :
    argValue g t = argValue s t := by
  cases t with
  | val v => rfl
  | slot p => rw [argValue_slot, argValue_slot, h]

theorem readArg_eval {T : Type} (s : State T) (t : Arg T) :
    readArg t s = match argValue s t with
      | some v => .ok v s
      | none => .undefined := by
  cases t with
  | val v => rfl
  | slot p =>
    rw [argValue_slot]
    exact load_peek p s

/-- The last statement of `push_back`, from a state with headroom. -/
theorem push_back_tail_arg {T : Type} (g : State T) (this : Nat) (t : Arg T) (h : Inv g this)
    (hlt : (g.vecs this).numElements < (g.vecs this).numCapacity) :
    VM.bind (readArg t)
      (fun v => store ((g.vecs this).data.add (g.vecs this).numElements) v)
      { g with
        vecs := upd g.vecs this
          { g.vecs this with numElements := wrapInt ((g.vecs this).numElements + 1) } }
      = pushEnd g this t := by
  have hv := argValue_blocks g
    { g with
      vecs := upd g.vecs this
        { g.vecs this with numElements := wrapInt ((g.vecs this).numElements + 1) } } t rfl
  simp only [VM.bind, readArg_eval, hv, pushEnd]
  cases argValue g t with
  | none => rfl
  | some v => exact push_back_tail g this v h hlt

/-- Complete description of `push_back` on a vector satisfying the
representation invariant, for any argument. -/
theorem push_back_eval_arg {T : Type} [Inhabited T] (allocOk : Bool) (s : State T) (this : Nat)
    (t : Arg T) (h : Inv s this) :
    push_back allocOk this t s =
      if (s.vecs this).numCapacity = 0 then
        (if allocOk then pushEnd (resized s this 1) this t
         else .thrown .unableToAllocate s)
      else if (s.vecs this).numCapacity = (s.vecs this).numElements then
        (if (s.vecs this).numCapacity * 2 ≤ INT_MAX then
          (if allocOk then pushEnd (resized s this ((s.vecs this).numCapacity * 2)) this t
           else .thrown .unableToAllocate s)
         else .assertFail)
      else pushEnd s this t := by
  obtain ⟨h0, hle, hmax, hbuf⟩ := id h
  by_cases hc0 : (s.vecs this).numCapacity = 0
  · rw [if_pos hc0]
    cases allocOk with
    | true =>
      have hr := resize_spec s this 1 h (by omega)
      have hinv1 := resized_inv s this 1 h (by omega) (by simp [INT_MAX])
      have ht := push_back_tail_arg (resized s this 1) this t hinv1
        (by simp only [resized_vec_this]; omega)
      simp only [resized_vec_this] at ht
      simp [push_back, VM.bind_apply, VM.bind, capacity, size, getVec, VM.pure_apply, hc0, hr,
        resized_vec_this, dataOf, setNumElements]
      exact ht
    | false =>
      have hr := resize_alloc_fail s this 1 (by omega) (by omega)
      simp [push_back, VM.bind_apply, VM.bind, capacity, size, getVec, VM.pure_apply, hc0, hr]
  · rw [if_neg hc0]
    by_cases hfull : (s.vecs this).numCapacity = (s.vecs this).numElements
    · rw [if_pos hfull]
      have hn0 : ¬ (s.vecs this).numElements = 0 := by omega
      rw [hfull] at hmax ⊢
      by_cases hov : (s.vecs this).numElements * 2 ≤ INT_MAX
      · rw [if_pos hov]
        have hw : wrapInt ((s.vecs this).numElements * 2) = (s.vecs this).numElements * 2 :=
          wrapInt_of_range _ (by omega) hov
        cases allocOk with
        | true =>
          have hr := resize_spec s this ((s.vecs this).numElements * 2) h (by omega)
          have hinv1 := resized_inv s this ((s.vecs this).numElements * 2) h (by omega) hov
          have ht := push_back_tail_arg (resized s this ((s.vecs this).numElements * 2)) this t hinv1
            (by simp only [resized_vec_this]; omega)
          simp only [resized_vec_this] at ht
          simp [push_back, VM.bind_apply, VM.bind, capacity, size, getVec, VM.pure_apply, hn0,
            hfull, hw, hr, resized_vec_this, dataOf, setNumElements]
          exact ht
        | false =>
          have hr := resize_alloc_fail s this ((s.vecs this).numElements * 2) (by omega)
            (by omega)
          simp [push_back, VM.bind_apply, VM.bind, capacity, size, getVec, VM.pure_apply, hn0,
            hfull, hw, hr]
      · rw [if_neg hov]
        have hr := resize_assert_fail allocOk s this (wrapInt ((s.vecs this).numElements * 2))
          (Or.inl (by simp only [wrapInt, INT_MAX] at *; omega))
        simp [push_back, VM.bind_apply, VM.bind, capacity, size, getVec, VM.pure_apply, hn0,
          hfull, hr]
    · rw [if_neg hfull]
      have ht := push_back_tail_arg s this t h (by omega)
      simp [push_back, VM.bind_apply, VM.bind, capacity, size, getVec, VM.pure_apply, hc0, hfull,
        cassert, dataOf, setNumElements]
      rw [if_pos (by omega)]
      exact ht

/-- Complete description of `push_back` on a vector satisfying the
representation invariant, for an argument outside the free store. -/
theorem push_back_eval {T : Type} [Inhabited T] (allocOk : Bool) (s : State T) (this : Nat)
    (t : T) (h : Inv s this) :
    push_back allocOk this (.val t) s =
      if (s.vecs this).numCapacity = 0 then
        (if allocOk then .ok () (appended (resized s this 1) this t)
         else .thrown .unableToAllocate s)
      else if (s.vecs this).numCapacity = (s.vecs this).numElements then
        (if (s.vecs this).numCapacity * 2 ≤ INT_MAX then
          (if allocOk then .ok () (appended (resized s this ((s.vecs this).numCapacity * 2)) this t)
           else .thrown .unableToAllocate s)
         else .assertFail)
      else .ok () (appended s this t) :=
  push_back_eval_arg allocOk s this (.val t) h

/-! ## Footprints -/

theorem Frame.refl {T : Type} (this : Nat) (s : State T) : Frame this s s :=
  ⟨le_refl _, fun _ _ => rfl, fun _ _ _ => rfl, Or.inl rfl⟩

theorem Frame.trans {T : Type} {this : Nat} {s t u : State T} (h1 : Frame this s t)
    (h2 : Frame this t u) : Frame this s u := by
  obtain ⟨a1, b1, c1, d1⟩ := h1
  obtain ⟨a2, b2, c2, d2⟩ := h2
  refine ⟨le_trans a1 a2, fun j hj => (b2 j hj).trans (b1 j hj), ?_, ?_⟩
  · intro b hb hown
    rw [c2 b (by omega) ?_, c1 b hb hown]
    rcases d1 with e | ⟨b1, hb1, e⟩
    · rw [e]; exact hown
    · rw [e]; simp only [blockOf, ne_eq, Option.some.injEq]; omega
  · rcases d2 with e2 | ⟨b2, hb2, e2⟩
    · rcases d1 with e1 | ⟨b1, hb1, e1⟩
      · left; rw [e2, e1]
      · right; exact ⟨b1, hb1, by rw [e2, e1]⟩
    · right; exact ⟨b2, by omega, e2⟩

theorem Separate.block_ne {T : Type} {s : State T} {i j : Nat} (h : Separate s i j)
    {b : Nat} {o : Int} (hj : (s.vecs j).data = .loc b o) :
    blockOf (s.vecs i).data ≠ some b := by
  unfold Separate at h
  rw [hj] at h
  cases hi : (s.vecs i).data with
  | null => simp [blockOf]
  | loc a oa =>
    rw [hi] at h
    simpa [blockOf] using h

theorem Frame.block_other {T : Type} {this j : Nat} {s t : State T} (hF : Frame this s t)
    (hinv : Inv s j) (hsep : Separate s this j) {b : Nat} {o : Int}
    (hd : (s.vecs j).data = .loc b o) : t.blocks b = s.blocks b := by
  obtain ⟨_, hlt, _⟩ := hinv.block hd
  exact hF.2.2.1 b hlt (hsep.block_ne hd)

theorem Frame.cells_other {T : Type} {this j : Nat} {s t : State T} (hF : Frame this s t)
    (hj : j ≠ this) (hinv : Inv s j) (hsep : Separate s this j) :
    cellsAt t (t.vecs j).data = cellsAt s (s.vecs j).data := by
  rw [hF.2.1 j hj]
  cases hd : (s.vecs j).data with
  | null => rfl
  | loc b o => simp only [cellsAt, hF.block_other hinv hsep hd]

theorem Frame.contents_other {T : Type} {this j : Nat} {s t : State T} (hF : Frame this s t)
    (hj : j ≠ this) (hinv : Inv s j) (hsep : Separate s this j) :
    contents t j = contents s j := by
  rw [contents, hF.cells_other hj hinv hsep, hF.2.1 j hj, contents]

theorem Frame.inv_other {T : Type} {this j : Nat} {s t : State T} (hF : Frame this s t)
    (hj : j ≠ this) (hinv : Inv s j) (hsep : Separate s this j) : Inv t j := by
  have hv := hF.2.1 j hj
  obtain ⟨h0, hle, hmax, hbuf⟩ := id hinv
  refine ⟨by rw [hv]; exact h0, by rw [hv]; exact hle, by rw [hv]; exact hmax, ?_⟩
  rw [hv]
  cases hd : (s.vecs j).data with
  | null => rw [hd] at hbuf; exact hbuf
  | loc b o =>
    rw [hd] at hbuf
    obtain ⟨ho, hlt, hpos, hblk⟩ := hbuf
    have := hF.1
    exact ⟨ho, by omega, hpos, by rw [hF.block_other hinv hsep hd]; exact hblk⟩

theorem Frame.separate {T : Type} {this j : Nat} {s t : State T} (hF : Frame this s t)
    (hj : j ≠ this) (hinv : Inv s j) (hsep : Separate s this j) : Separate t this j := by
  have hv := hF.2.1 j hj
  unfold Separate
  rw [hv]
  cases hd : (s.vecs j).data with
  | null => cases (t.vecs this).data <;> trivial
  | loc b o =>
    obtain ⟨_, hlt, _⟩ := hinv.block hd
    rcases hF.2.2.2 with e | ⟨b1, hb1, e⟩
    · rw [e]
      have hne := hsep.block_ne hd
      cases hi : (s.vecs this).data with
      | null => trivial
      | loc a oa =>
        rw [hi] at hne
        simpa [blockOf] using hne
    · rw [e]
      show b1 ≠ b
      omega

theorem Separate.symm {T : Type} {s : State T} {i j : Nat} (h : Separate s i j) :
    Separate s j i := by
  unfold Separate at *
  cases hi : (s.vecs i).data <;> cases hj : (s.vecs j).data <;> simp_all
  exact fun e => h e.symm


/-! ## Assignment -/

theorem withSize_vec_this {T : Type} (s : State T) (this : Nat) (n : Int) :
    (withSize s this n).vecs this = { s.vecs this with numElements := n } := by
  simp [withSize, upd_same]

theorem withSize_vec_other {T : Type} (s : State T) (this j : Nat) (n : Int) (h : j ≠ this) :
    (withSize s this n).vecs j = s.vecs j := by
  simp [withSize, upd_other _ _ _ _ h]

theorem withSize_frame {T : Type} (s : State T) (this : Nat) (n : Int) :
    Frame this s (withSize s this n) :=
  ⟨le_refl _, fun j hj => withSize_vec_other s this j n hj, fun _ _ _ => rfl,
    Or.inl (by simp [withSize_vec_this])⟩

theorem withSize_inv {T : Type} (s : State T) (this : Nat) (n : Int) (h : Inv s this)
    (h0 : 0 ≤ n) (hle : n ≤ (s.vecs this).numCapacity) : Inv (withSize s this n) this := by
  obtain ⟨_, _, hmax, hbuf⟩ := h
  refine ⟨by simp [withSize_vec_this, h0], by simp [withSize_vec_this, hle],
    by simpa [withSize_vec_this] using hmax, ?_⟩
  simp only [withSize_vec_this]
  cases hd : (s.vecs this).data with
  | null => rw [hd] at hbuf; exact hbuf
  | loc b o => rw [hd] at hbuf; exact hbuf

theorem withSize_cells {T : Type} (s : State T) (this : Nat) (n : Int) (p : Ptr) :
    cellsAt (withSize s this n) p = cellsAt s p := by
  cases p <;> rfl

theorem withSize_contents {T : Type} (s : State T) (this : Nat) (n : Int) :
    contents (withSize s this n) this = (cellsAt s (s.vecs this).data).take n.toNat := by
  simp [contents, withSize_vec_this, withSize_cells]

theorem clear_eval {T : Type} (s : State T) (this : Nat) :
    clear this s = .ok () (withSize s this 0) := rfl

theorem copied_vec_this {T : Type} (g : State T) (this rhs : Nat) :
    (copied g this rhs).vecs this
      = { g.vecs this with numElements := (g.vecs rhs).numElements } := by
  simp [copied, upd_same]

theorem copied_vec_other {T : Type} (g : State T) (this rhs j : Nat) (h : j ≠ this) :
    (copied g this rhs).vecs j = g.vecs j := by
  simp [copied, upd_other _ _ _ _ h]

theorem copied_frame {T : Type} (g : State T) (this rhs : Nat) :
    Frame this g (copied g this rhs) := by
  refine ⟨le_refl _, fun j hj => copied_vec_other g this rhs j hj, ?_, ?_⟩
  · intro b _ hown
    cases hd : (g.vecs this).data with
    | null => simp [copied, hd]
    | loc a o =>
      have hne : b ≠ a := by
        intro h; apply hown; simp [hd, blockOf, h]
      simp [copied, hd, upd_other _ _ _ _ hne]
  · left; simp [copied_vec_this]

theorem copied_cells {T : Type} (g : State T) (this rhs : Nat) (h : Inv g this)
    (hle : (g.vecs rhs).numElements ≤ (g.vecs this).numCapacity) :
    cellsAt (copied g this rhs) ((copied g this rhs).vecs this).data
      = (cellsAt g (g.vecs rhs).data).take (g.vecs rhs).numElements.toNat ++
          (cellsAt g (g.vecs this).data).drop (g.vecs rhs).numElements.toNat := by
  rw [copied_vec_this]
  cases hd : (g.vecs this).data with
  | null =>
    obtain ⟨_, _, _, hbuf⟩ := h
    rw [hd] at hbuf
    simp only [OwnsBuffer] at hbuf
    have hz : (g.vecs rhs).numElements.toNat = 0 := by omega
    simp [cellsAt, hz]
  | loc b o => simp [cellsAt, copied, hd, upd_same]

theorem copied_contents {T : Type} (g : State T) (this rhs : Nat) (h : Inv g this)
    (hr : Inv g rhs) (hle : (g.vecs rhs).numElements ≤ (g.vecs this).numCapacity) :
    contents (copied g this rhs) this = contents g rhs := by
  have hlen := hr.contents_length
  rw [contents, copied_cells g this rhs h hle, copied_vec_this]
  show List.take (g.vecs rhs).numElements.toNat (contents g rhs ++ _) = contents g rhs
  rw [List.take_append_of_le_length (by omega)]
  exact List.take_of_length_le (by omega)

theorem copied_inv {T : Type} (g : State T) (this rhs : Nat) (h : Inv g this)
    (hr : Inv g rhs) (hle : (g.vecs rhs).numElements ≤ (g.vecs this).numCapacity) :
    Inv (copied g this rhs) this := by
  have hlen := hr.contents_length
  have hcl := h.cells_length
  have hcells := copied_cells g this rhs h hle
  obtain ⟨_, _, hmax, hbuf⟩ := id h
  have h0 := hr.1
  refine ⟨by simp [copied_vec_this, h0], by simp [copied_vec_this, hle],
    by simpa [copied_vec_this] using hmax, ?_⟩
  rw [copied_vec_this] at hcells ⊢
  cases hd : (g.vecs this).data with
  | null => rw [hd] at hbuf; exact hbuf
  | loc b o =>
    rw [hd] at hbuf hcells hcl
    obtain ⟨ho, hlt, hpos, _⟩ := hbuf
    refine ⟨ho, by simpa [copied] using hlt, hpos, ?_⟩
    have hb : (copied g this rhs).blocks b = some (cellsAt (copied g this rhs) (.loc b o)) := by
      simp [copied, hd, upd_same, cellsAt]
    rw [hb, hcells]
    change some (((contents g rhs ++ _).length : Nat) : Int) = _
    simp only [List.length_append, List.length_drop, hlen]
    congr 1
    omega

theorem assign_tail {T : Type} (g : State T) (this rhs : Nat) (hne : this ≠ rhs)
    (h : Inv g this) (hr : Inv g rhs) (hsep : Separate g this rhs)
    (hle : (g.vecs rhs).numElements ≤ (g.vecs this).numCapacity) :
    forLoop (copySlot (dataOf this) (dataOf rhs)) (g.vecs rhs).numElements.toNat 0
      (withSize g this (g.vecs rhs).numElements) = .ok () (copied g this rhs) := by
  have hcl := h.cells_length
  have hrl := hr.cells_length
  obtain ⟨hr0, hrle, _, _⟩ := id hr
  by_cases hz : (g.vecs rhs).numElements = 0
  · rw [hz]
    simp only [Int.toNat_zero, forLoop, VM.pure_apply]
    congr 1
    simp only [withSize, copied, hz, Int.toNat_zero, List.take_zero, List.drop_zero,
      List.nil_append]
    congr 1
    cases hd : (g.vecs this).data with
    | null => rfl
    | loc b o =>
      obtain ⟨_, _, ca, hca, _⟩ := h.block hd
      simp only [cellsAt, hca, Option.getD_some]
      rw [← hca, upd_self]
  · obtain ⟨a, ha⟩ := hr.data_ne_null (by omega)
    obtain ⟨b, hb⟩ := h.data_ne_null (by omega)
    obtain ⟨_, _, ca, hca, hcalen⟩ := hr.block ha
    obtain ⟨_, _, cb, hcb, hcblen⟩ := h.block hb
    have hab : a ≠ b := by
      have := hsep.block_ne ha
      rw [hb] at this
      intro e
      exact this (by simp [blockOf, e])
    have hloop := forLoop_copySlot (T := T) (dataOf this) (dataOf rhs) a b hab
      (withSize g this (g.vecs rhs).numElements).vecs ca
      (fun s1 h1 => by
        simp [dataOf, VM.bind_apply, VM.bind, getVec, VM.pure_apply, h1, withSize_vec_this, hb])
      (fun s1 h1 => by
        simp [dataOf, VM.bind_apply, VM.bind, getVec, VM.pure_apply, h1,
          withSize_vec_other g this rhs _ (Ne.symm hne), ha])
      (g.vecs rhs).numElements.toNat 0 (withSize g this (g.vecs rhs).numElements)
      [] cb rfl hca hcb rfl (by omega) (by omega)
    simp only [Nat.cast_zero] at hloop
    rw [hloop]
    congr 1
    simp [withSize, copied, hb, cellsAt, ha, hca, hcb]


theorem setNumElements_eval {T : Type} (s : State T) (this : Nat) (n : Int) :
    setNumElements this n s = .ok () (withSize s this n) := rfl

/-- Complete description of `operator=` for a source other than the
destination, both satisfying the representation invariant and owning
different buffers. -/
theorem assign_eval {T : Type} [Inhabited T] (allocOk : Bool) (s : State T) (this rhs : Nat)
    (hne : this ≠ rhs) (h : Inv s this) (hr : Inv s rhs) (hsep : Separate s this rhs) :
    assign allocOk this rhs s =
      if (s.vecs this).numCapacity < (s.vecs rhs).numElements then
        (if allocOk then
          .ok () (copied (resized (withSize s this 0) this (s.vecs rhs).numElements) this rhs)
         else .thrown .unableToAllocate (withSize s this 0))
      else .ok () (copied (withSize s this 0) this rhs) := by
  have hne2 : rhs ≠ this := Ne.symm hne
  have hF0 := withSize_frame s this 0
  have h0 : Inv (withSize s this 0) this := withSize_inv s this 0 h (le_refl _) (by
    have := h.1; have := h.2.1; omega)
  have hr0 : Inv (withSize s this 0) rhs := hF0.inv_other hne2 hr hsep
  have hsep0 : Separate (withSize s this 0) this rhs := hF0.separate hne2 hr hsep
  have hv0 : (withSize s this 0).vecs rhs = s.vecs rhs := withSize_vec_other s this rhs 0 hne2
  have hc0 : ((withSize s this 0).vecs this).numCapacity = (s.vecs this).numCapacity := by
    simp [withSize_vec_this]
  by_cases hlt : (s.vecs this).numCapacity < (s.vecs rhs).numElements
  · rw [if_pos hlt]
    cases allocOk with
    | true =>
      have hres := resize_spec (withSize s this 0) this (s.vecs rhs).numElements h0
        (by rw [hc0]; exact hlt)
      have hF1 := resized_frame (withSize s this 0) this (s.vecs rhs).numElements
      have h1 : Inv (resized (withSize s this 0) this (s.vecs rhs).numElements) this :=
        resized_inv _ this _ h0 (by rw [hc0]; exact hlt) (by
          have := hr.2.1; have := hr.2.2.1; omega)
      have hr1 := hF1.inv_other hne2 hr0 hsep0
      have hsep1 := hF1.separate hne2 hr0 hsep0
      have hv1 : (resized (withSize s this 0) this (s.vecs rhs).numElements).vecs rhs
          = s.vecs rhs := by
        rw [resized_vec_other _ _ _ _ hne2, hv0]
      have ht := assign_tail _ this rhs hne h1 hr1 hsep1 (by
        rw [hv1, resized_vec_this])
      rw [hv1] at ht
      simp [assign, VM.bind_apply, VM.bind, setNumElements_eval, capacity, size, getVec,
        VM.pure_apply, hv0, hc0, hlt, hres, hv1, withSize_vec_this, ht]
    | false =>
      have hres := resize_alloc_fail (withSize s this 0) this (s.vecs rhs).numElements (by
        have := h.1; have := h.2.1; omega) (by rw [hc0]; exact hlt)
      simp [assign, VM.bind_apply, VM.bind, setNumElements_eval, capacity, size, getVec,
        VM.pure_apply, hv0, hc0, hlt, hres]
  · rw [if_neg hlt]
    have ht := assign_tail _ this rhs hne h0 hr0 hsep0 (by rw [hv0, hc0]; omega)
    rw [hv0] at ht
    simp [assign, VM.bind_apply, VM.bind, setNumElements_eval, capacity, size, getVec,
      VM.pure_apply, hv0, hc0, hlt, withSize_vec_this, ht]

/-- Complete description of `operator=` when `rhs` is the destination
itself. -/
theorem assign_self_eval {T : Type} [Inhabited T] (allocOk : Bool) (s : State T) (this : Nat)
    (hcap : 0 ≤ (s.vecs this).numCapacity) :
    assign allocOk this this s = .ok () (withSize s this 0) := by
  have hlt : ¬ (s.vecs this).numCapacity < 0 := by omega
  simp [assign, VM.bind_apply, VM.bind, setNumElements_eval, capacity, size, getVec,
    VM.pure_apply, withSize_vec_this, hlt, forLoop]
  simp [withSize, upd_upd, upd_same]


/-! ## Indexed access -/

theorem load_eval {T : Type} (s : State T) (this : Nat) (index : Int) (h : Inv s this) :
    load ((s.vecs this).data.add index) s =
      if 0 ≤ index then
        match (cellsAt s (s.vecs this).data)[index.toNat]? with
        | some v => .ok v s
        | none => .undefined
      else .undefined := by
  cases hd : (s.vecs this).data with
  | null => simp [load, Ptr.add, cellsAt]
  | loc b o =>
    obtain ⟨ho, _, ca, hca, _⟩ := h.block hd
    subst ho
    simp [load, Ptr.add, cellsAt, hca]

theorem store_eval {T : Type} (s : State T) (this : Nat) (index : Int) (x : T) (h : Inv s this) :
    store ((s.vecs this).data.add index) x s =
      if 0 ≤ index ∧ index < (s.vecs this).numCapacity then
        .ok () (putSlot s this index.toNat x)
      else .undefined := by
  have hcl := h.cells_length
  cases hd : (s.vecs this).data with
  | null =>
    obtain ⟨_, _, _, hbuf⟩ := h
    rw [hd] at hbuf
    simp only [OwnsBuffer] at hbuf
    have : ¬ (0 ≤ index ∧ index < (s.vecs this).numCapacity) := by omega
    simp [store, Ptr.add, this]
  | loc b o =>
    obtain ⟨ho, _, ca, hca, hlen⟩ := h.block hd
    subst ho
    by_cases hc : 0 ≤ index ∧ index < (s.vecs this).numCapacity
    · have h2 : index.toNat < ca.length := by omega
      simp [store, Ptr.add, hca, hc, h2, putSlot, hd, cellsAt]
    · have h2 : ¬ (0 ≤ index ∧ index.toNat < ca.length) := by omega
      simp [store, Ptr.add, hca, hc, h2]

/-- Complete description of the read-only `operator[]`. -/
theorem index_ro_eval {T : Type} (s : State T) (this : Nat) (index : Int) (h : Inv s this) :
    index_ro this index s =
      if index > 0 ∨ index < (s.vecs this).numElements then
        (if 0 ≤ index then
          match (cellsAt s (s.vecs this).data)[index.toNat]? with
          | some v => .ok v s
          | none => .undefined
         else .undefined)
      else .thrown .invalidIndex s := by
  have hl := load_eval s this index h
  by_cases hg : index > 0 ∨ index < (s.vecs this).numElements
  · simp [index_ro, VM.bind_apply, VM.bind, size, getVec, VM.pure_apply, hg, dataOf, hl]
  · simp [index_ro, VM.bind_apply, VM.bind, size, getVec, VM.pure_apply, hg, throwExn]

/-- Complete description of the read/write `operator[]`. -/
theorem index_rw_eval {T : Type} (s : State T) (this : Nat) (index : Int) (h : Inv s this) :
    index_rw this index s =
      if index > 0 ∨ index < (s.vecs this).numElements then
        (if 0 ≤ index ∧ index < (s.vecs this).numCapacity then
          .ok ((s.vecs this).data.add index) s
         else .undefined)
      else .thrown .invalidIndex s := by
  have hl := load_eval s this index h
  have hcl := h.cells_length
  by_cases hg : index > 0 ∨ index < (s.vecs this).numElements
  · rw [if_pos hg]
    by_cases hc : 0 ≤ index ∧ index < (s.vecs this).numCapacity
    · have h2 : index.toNat < (cellsAt s (s.vecs this).data).length := by omega
      rw [if_pos hc.1, List.getElem?_eq_getElem h2] at hl
      simp [index_rw, VM.bind_apply, VM.bind, size, getVec, VM.pure_apply, hg, dataOf, slotRef,
        hl, hc]
    · rw [if_neg hc]
      have hl2 : load ((s.vecs this).data.add index) s = .undefined := by
        rw [hl]
        by_cases h0 : 0 ≤ index
        · rw [if_pos h0, List.getElem?_eq_none (by omega)]
        · rw [if_neg h0]
      simp [index_rw, VM.bind_apply, VM.bind, size, getVec, VM.pure_apply, hg, dataOf, slotRef,
        hl2]
  · simp [index_rw, VM.bind_apply, VM.bind, size, getVec, VM.pure_apply, hg, throwExn]

/-- Complete description of `v[index] = x`. -/
theorem index_write_eval {T : Type} (s : State T) (this : Nat) (index : Int) (x : T)
    (h : Inv s this) :
    index_write this index x s =
      if index > 0 ∨ index < (s.vecs this).numElements then
        (if 0 ≤ index ∧ index < (s.vecs this).numCapacity then
          .ok () (putSlot s this index.toNat x)
         else .undefined)
      else .thrown .invalidIndex s := by
  have hrw := index_rw_eval s this index h
  have hst := store_eval s this index x h
  by_cases hg : index > 0 ∨ index < (s.vecs this).numElements
  · by_cases hc : 0 ≤ index ∧ index < (s.vecs this).numCapacity
    · rw [if_pos hg, if_pos hc] at hrw ⊢
      rw [if_pos hc] at hst
      simp [index_write, VM.bind_apply, VM.bind, hrw, hst]
    · rw [if_pos hg, if_neg hc] at hrw ⊢
      simp [index_write, VM.bind_apply, VM.bind, hrw]
  · rw [if_neg hg] at hrw ⊢
    simp [index_write, VM.bind_apply, VM.bind, hrw]

theorem putSlot_vecs {T : Type} (s : State T) (this k : Nat) (x : T) :
    (putSlot s this k x).vecs = s.vecs := rfl

theorem putSlot_frame {T : Type} (s : State T) (this k : Nat) (x : T) :
    Frame this s (putSlot s this k x) := by
  refine ⟨le_refl _, fun _ _ => rfl, ?_, Or.inl rfl⟩
  intro b _ hown
  cases hd : (s.vecs this).data with
  | null => simp [putSlot, hd]
  | loc a o =>
    have hne : b ≠ a := by
      intro h; apply hown; simp [hd, blockOf, h]
    simp [putSlot, hd, upd_other _ _ _ _ hne]

theorem putSlot_cells {T : Type} (s : State T) (this k : Nat) (x : T) :
    cellsAt (putSlot s this k x) (s.vecs this).data = (cellsAt s (s.vecs this).data).set k x := by
  cases hd : (s.vecs this).data with
  | null => simp [cellsAt]
  | loc b o => simp [cellsAt, putSlot, hd, upd_same]

theorem putSlot_inv {T : Type} (s : State T) (this k : Nat) (x : T) (h : Inv s this) :
    Inv (putSlot s this k x) this := by
  have hc := putSlot_cells s this k x
  obtain ⟨h0, hle, hmax, hbuf⟩ := h
  refine ⟨h0, hle, hmax, ?_⟩
  rw [putSlot_vecs]
  cases hd : (s.vecs this).data with
  | null => rw [hd] at hbuf; exact hbuf
  | loc b o =>
    rw [hd] at hbuf hc
    obtain ⟨ho, hlt, hpos, hblk⟩ := hbuf
    refine ⟨ho, hlt, hpos, ?_⟩
    have hb : (putSlot s this k x).blocks b = some (cellsAt (putSlot s this k x) (.loc b o)) := by
      simp [putSlot, hd, upd_same, cellsAt]
    rw [hb, hc]
    cases hsb : s.blocks b with
    | none => rw [hsb] at hblk; simp at hblk
    | some ca =>
      rw [hsb] at hblk
      simpa [cellsAt, hsb] using hblk


/-! ## Constructors -/

theorem vector_default_eval {T : Type} (s : State T) (this : Nat) :
    vector_default this s = .ok () (fresh s this) := rfl

theorem fresh_vec_this {T : Type} (s : State T) (this : Nat) :
    (fresh s this).vecs this = ⟨Ptr.null, 0, 0⟩ := by
  simp [fresh, upd_same]

theorem fresh_vec_other {T : Type} (s : State T) (this j : Nat) (h : j ≠ this) :
    (fresh s this).vecs j = s.vecs j := by
  simp [fresh, upd_other _ _ _ _ h]

theorem fresh_inv {T : Type} (s : State T) (this : Nat) : Inv (fresh s this) this := by
  refine ⟨?_, ?_, ?_, ?_⟩ <;> simp [fresh_vec_this, OwnsBuffer, INT_MAX]

theorem fresh_inv_other {T : Type} (s : State T) (this j : Nat) (h : j ≠ this)
    (hj : Inv s j) : Inv (fresh s this) j := by
  unfold Inv at *
  rw [fresh_vec_other s this j h]
  obtain ⟨h0, hle, hmax, hbuf⟩ := hj
  refine ⟨h0, hle, hmax, ?_⟩
  cases hd : (s.vecs j).data with
  | null => rw [hd] at hbuf; exact hbuf
  | loc b o => rw [hd] at hbuf; exact hbuf

theorem fresh_separate {T : Type} (s : State T) (this j : Nat) :
    Separate (fresh s this) this j := by
  unfold Separate
  rw [fresh_vec_this]
  trivial

theorem fresh_separate_other {T : Type} (s : State T) (this i j : Nat) (hi : i ≠ this)
    (hj : j ≠ this) (h : Separate s i j) : Separate (fresh s this) i j := by
  unfold Separate at *
  rw [fresh_vec_other s this i hi, fresh_vec_other s this j hj]
  exact h

theorem fresh_contents_other {T : Type} (s : State T) (this j : Nat) (h : j ≠ this) :
    contents (fresh s this) j = contents s j := by
  unfold contents
  rw [fresh_vec_other s this j h]
  cases (s.vecs j).data <;> rfl

/-- Complete description of the sized constructor. -/
theorem vector_sized_eval {T : Type} [Inhabited T] (allocOk : Bool) (s : State T) (this : Nat)
    (r : Int) :
    vector_sized allocOk this r s =
      if r < 0 then .assertFail
      else if r = 0 then .ok () (fresh s this)
      else if allocOk then .ok () (withSize (resized (fresh s this) this r) this r)
      else .thrown .unableToAllocate (fresh s this) := by
  by_cases hneg : r < 0
  · have h1 : ¬ (r ≥ 0) := by omega
    simp [vector_sized, VM.bind_apply, VM.bind, vector_default_eval, cassert, hneg, h1]
  · by_cases hz : r = 0
    · subst hz
      simp [vector_sized, VM.bind_apply, VM.bind, vector_default_eval, cassert, VM.pure_apply]
    · have hpos : 0 < r := by omega
      have h1 : r ≥ 0 := by omega
      rw [if_neg hneg, if_neg hz]
      cases allocOk with
      | true =>
        have hres := resize_spec (fresh s this) this r (fresh_inv s this)
          (by rw [fresh_vec_this]; exact hpos)
        simp [vector_sized, VM.bind_apply, VM.bind, vector_default_eval, cassert, h1, hpos, hres,
          setNumElements_eval]
      | false =>
        have hres := resize_alloc_fail (fresh s this) this r hpos
          (by rw [fresh_vec_this]; exact hpos)
        simp [vector_sized, VM.bind_apply, VM.bind, vector_default_eval, cassert, h1, hpos, hres]

/-- Complete description of the fill constructor. -/
theorem vector_fill_eval {T : Type} [Inhabited T] (allocOk : Bool) (s : State T) (this : Nat)
    (r : Int) (t : T) :
    vector_fill allocOk this r t s =
      if r = 0 then .ok () (fresh s this) else .assertFail := by
  by_cases hz : r = 0
  · subst hz
    simp [vector_fill, VM.bind_apply, VM.bind, vector_default_eval, cassert, VM.pure_apply]
  · rw [if_neg hz]
    by_cases hneg : r < 0
    · have h1 : ¬ (r ≥ 0) := by omega
      simp [vector_fill, VM.bind_apply, VM.bind, vector_default_eval, cassert, h1]
    · have hpos : 0 < r := by omega
      have h1 : r ≥ 0 := by omega
      simp [vector_fill, VM.bind_apply, VM.bind, vector_default_eval, cassert, h1, hpos,
        resizeFill]

/-- The copy constructor is the member initialisation followed, for a
non-empty source, by `operator=`. -/
theorem vector_copy_eval {T : Type} [Inhabited T] (allocOk : Bool) (s : State T)
    (this rhs : Nat) (hne : this ≠ rhs) :
    vector_copy allocOk this rhs s =
      if (s.vecs rhs).numElements = 0 then .ok () (fresh s this)
      else assign allocOk this rhs (fresh s this) := by
  have hv : (fresh s this).vecs rhs = s.vecs rhs := fresh_vec_other s this rhs (Ne.symm hne)
  by_cases hz : (s.vecs rhs).numElements = 0
  · simp [vector_copy, VM.bind_apply, VM.bind, vector_default_eval, empty, getVec,
      VM.pure_apply, hv, hz]
  · simp [vector_copy, VM.bind_apply, VM.bind, vector_default_eval, empty, getVec,
      VM.pure_apply, hv, hz]

/-! ## Post-conditions of `push_back` and `operator=` -/

/-- What a `push_back` that returns has done, for an argument outside the
free store. -/
theorem push_back_post {T : Type} [Inhabited T] (allocOk : Bool) (s s1 : State T) (this : Nat)
    (t : T) (h : Inv s this) (hok : push_back allocOk this (.val t) s = .ok () s1) :
    Inv s1 this ∧ Frame this s s1 ∧ contents s1 this = contents s this ++ [t] ∧
      (s1.vecs this).numElements = (s.vecs this).numElements + 1 ∧
      (s1.vecs this).numCapacity =
        (if (s.vecs this).numCapacity = 0 then 1
         else if (s.vecs this).numCapacity = (s.vecs this).numElements then
           (s.vecs this).numCapacity * 2
         else (s.vecs this).numCapacity) := by
  have key : ∀ g : State T, Inv g this → Frame this s g → contents g this = contents s this →
      (g.vecs this).numElements = (s.vecs this).numElements →
      (g.vecs this).numElements < (g.vecs this).numCapacity →
      Inv (appended g this t) this ∧ Frame this s (appended g this t) ∧
        contents (appended g this t) this = contents s this ++ [t] ∧
        ((appended g this t).vecs this).numElements = (s.vecs this).numElements + 1 ∧
        ((appended g this t).vecs this).numCapacity = (g.vecs this).numCapacity := by
    intro g hg hF hc hn hlt
    have hw := wrapInt_of_range ((g.vecs this).numElements + 1)
      (by have := hg.1; omega) (by have := hg.2.2.1; omega)
    refine ⟨appended_inv g this t hg hlt, hF.trans (appended_frame g this t), ?_, ?_, ?_⟩
    · rw [appended_contents g this t hg hlt, hc]
    · simp only [appended_vec_this, hw]; exact congrArg (· + 1) hn
    · simp only [appended_vec_this]
  rw [push_back_eval allocOk s this t h] at hok
  obtain ⟨h0, hle, hmax, _⟩ := id h
  by_cases hc0 : (s.vecs this).numCapacity = 0
  · rw [if_pos hc0] at hok ⊢
    cases allocOk with
    | false => simp at hok
    | true =>
      simp only [if_true, Res.ok.injEq, true_and] at hok
      subst hok
      have := key (resized s this 1) (resized_inv s this 1 h (by omega) (by simp [INT_MAX]))
        (resized_frame s this 1) (resized_contents s this 1 h) (by simp [resized_vec_this])
        (by simp only [resized_vec_this]; omega)
      simpa [resized_vec_this] using this
  · rw [if_neg hc0] at hok ⊢
    by_cases hfull : (s.vecs this).numCapacity = (s.vecs this).numElements
    · rw [if_pos hfull] at hok ⊢
      by_cases hov : (s.vecs this).numCapacity * 2 ≤ INT_MAX
      · rw [if_pos hov] at hok
        cases allocOk with
        | false => simp at hok
        | true =>
          simp only [if_true, Res.ok.injEq, true_and] at hok
          subst hok
          have := key (resized s this ((s.vecs this).numCapacity * 2))
            (resized_inv s this _ h (by omega) hov)
            (resized_frame s this _) (resized_contents s this _ h) (by simp [resized_vec_this])
            (by simp only [resized_vec_this]; omega)
          simpa [resized_vec_this] using this
      · rw [if_neg hov] at hok
        cases hok
    · rw [if_neg hfull] at hok ⊢
      simp only [Res.ok.injEq, true_and] at hok
      subst hok
      exact key s h (Frame.refl this s) rfl rfl (by omega)

/-- With a working allocator and no `int` overflow in the doubling,
`push_back` of an argument outside the free store returns. -/
theorem push_back_returns {T : Type} [Inhabited T] (s : State T) (this : Nat) (t : T)
    (h : Inv s this)
    (hov : (s.vecs this).numCapacity = (s.vecs this).numElements →
      (s.vecs this).numCapacity * 2 ≤ INT_MAX) :
    ∃ s1, push_back true this (.val t) s = .ok () s1 := by
  rw [push_back_eval true s this t h]
  by_cases hc0 : (s.vecs this).numCapacity = 0
  · exact ⟨_, by rw [if_pos hc0]; rfl⟩
  · by_cases hfull : (s.vecs this).numCapacity = (s.vecs this).numElements
    · exact ⟨_, by rw [if_neg hc0, if_pos hfull, if_pos (hov hfull)]; rfl⟩
    · exact ⟨_, by rw [if_neg hc0, if_neg hfull]⟩

theorem resized_block_own {T : Type} [Inhabited T] (s : State T) (this : Nat) (c : Int)
    (b : Nat) (hown : blockOf (s.vecs this).data = some b) :
    (resized s this c).blocks b = none := by
  cases hd : (s.vecs this).data with
  | null => rw [hd] at hown; cases hown
  | loc a o =>
    rw [hd] at hown
    simp only [blockOf, Option.some.injEq] at hown
    subst hown
    simp [resized, release, hd, upd_same]

/-- Growth releases the vector's own buffer and leaves every other allocated
array as it is: an argument that can still be read after growth does not
refer into the old buffer and holds the value it held before. -/
theorem argValue_resized {T : Type} [Inhabited T] (s : State T) (this : Nat) (c : Int)
    (t : Arg T) (v : T) (halloc : ∀ b, argBlock t = some b → b < s.next)
    (hv : argValue (resized s this c) t = some v) :
    argValue s t = some v ∧ ∀ b, argBlock t = some b → blockOf (s.vecs this).data ≠ some b := by
  cases t with
  | val w => exact ⟨hv, fun b hb => by cases hb⟩
  | slot p =>
    cases p with
    | null => rw [argValue_slot] at hv; cases hv
    | loc b o =>
      have hlt : b < s.next := halloc b rfl
      have hown : blockOf (s.vecs this).data ≠ some b := by
        intro hown
        rw [argValue_slot] at hv
        simp [peek, resized_block_own s this c b hown] at hv
      refine ⟨?_, ?_⟩
      · rw [argValue_slot] at hv ⊢
        simpa [peek, resized_block_other s this c b (by omega) hown] using hv
      · intro b1 hb1
        simp only [argBlock, blockOf, Option.some.injEq] at hb1
        subst hb1
        exact hown

theorem pushEnd_ok {T : Type} (g s1 : State T) (this : Nat) (t : Arg T)
    (h : pushEnd g this t = .ok () s1) :
    ∃ v, argValue g t = some v ∧ s1 = appended g this v := by
  unfold pushEnd at h
  cases hv : argValue g t with
  | none => rw [hv] at h; cases h
  | some v =>
    rw [hv] at h
    simp only [Res.ok.injEq, true_and] at h
    exact ⟨v, rfl, h.symm⟩

theorem pushEnd_not_thrown {T : Type} (g s1 : State T) (this : Nat) (t : Arg T) (e : Exn) :
    pushEnd g this t ≠ .thrown e s1 := by
  unfold pushEnd
  cases argValue g t <;> (intro h; cases h)

/-- A `push_back` that returns has done what `push_back` of an object outside
the free store holding some value `v` does; when the argument refers to
allocated memory, `v` is the value it held at the call and, if the call had
to grow, the argument does not refer into the vector's own buffer. -/
theorem push_back_arg_as_val {T : Type} [Inhabited T] (allocOk : Bool) (s s1 : State T)
    (this : Nat) (t : Arg T) (h : Inv s this) (hok : push_back allocOk this t s = .ok () s1) :
    ∃ v, push_back allocOk this (.val v) s = .ok () s1 ∧
      ((∀ b, argBlock t = some b → b < s.next) → argValue s t = some v) := by
  rw [push_back_eval_arg allocOk s this t h] at hok
  by_cases hc0 : (s.vecs this).numCapacity = 0
  · rw [if_pos hc0] at hok
    cases allocOk with
    | false => simp at hok
    | true =>
      simp only [if_true] at hok
      obtain ⟨v, hv, hs1⟩ := pushEnd_ok _ s1 this t hok
      refine ⟨v, ?_, fun halloc => (argValue_resized s this 1 t v halloc hv).1⟩
      rw [push_back_eval true s this v h, if_pos hc0, hs1]
      rfl
  · rw [if_neg hc0] at hok
    by_cases hfull : (s.vecs this).numCapacity = (s.vecs this).numElements
    · rw [if_pos hfull] at hok
      by_cases hov : (s.vecs this).numCapacity * 2 ≤ INT_MAX
      · rw [if_pos hov] at hok
        cases allocOk with
        | false => simp at hok
        | true =>
          simp only [if_true] at hok
          obtain ⟨v, hv, hs1⟩ := pushEnd_ok _ s1 this t hok
          refine ⟨v, ?_, fun halloc => (argValue_resized s this _ t v halloc hv).1⟩
          rw [push_back_eval true s this v h, if_neg hc0, if_pos hfull, if_pos hov, hs1]
          rfl
      · rw [if_neg hov] at hok; cases hok
    · rw [if_neg hfull] at hok
      obtain ⟨v, hv, hs1⟩ := pushEnd_ok _ s1 this t hok
      refine ⟨v, ?_, fun _ => hv⟩
      rw [push_back_eval allocOk s this v h, if_neg hc0, if_neg hfull, hs1]

/-- What a `push_back` that returns has done, for any argument: it has
appended some value `v`, which is the value the argument held at the call
when the argument refers to allocated memory. -/
theorem push_back_post_arg {T : Type} [Inhabited T] (allocOk : Bool) (s s1 : State T)
    (this : Nat) (t : Arg T) (h : Inv s this) (hok : push_back allocOk this t s = .ok () s1) :
    ∃ v, ((∀ b, argBlock t = some b → b < s.next) → argValue s t = some v) ∧
      Inv s1 this ∧ Frame this s s1 ∧ contents s1 this = contents s this ++ [v] ∧
      (s1.vecs this).numElements = (s.vecs this).numElements + 1 ∧
      (s1.vecs this).numCapacity =
        (if (s.vecs this).numCapacity = 0 then 1
         else if (s.vecs this).numCapacity = (s.vecs this).numElements then
           (s.vecs this).numCapacity * 2
         else (s.vecs this).numCapacity) := by
  obtain ⟨v, hval, hv⟩ := push_back_arg_as_val allocOk s s1 this t h hok
  exact ⟨v, hv, push_back_post allocOk s s1 this v h hval⟩

/-- What an `operator=` from another vector that returns has done. -/
theorem assign_post {T : Type} [Inhabited T] (allocOk : Bool) (s s1 : State T) (this rhs : Nat)
    (hne : this ≠ rhs) (h : Inv s this) (hr : Inv s rhs) (hsep : Separate s this rhs)
    (hok : assign allocOk this rhs s = .ok () s1) :
    Inv s1 this ∧ Frame this s s1 ∧ contents s1 this = contents s rhs ∧
      (s1.vecs this).numElements = (s.vecs rhs).numElements ∧
      (s1.vecs this).numCapacity =
        (if (s.vecs this).numCapacity < (s.vecs rhs).numElements then (s.vecs rhs).numElements
         else (s.vecs this).numCapacity) := by
  have hne2 : rhs ≠ this := Ne.symm hne
  have hF0 := withSize_frame s this 0
  have h0 : Inv (withSize s this 0) this := withSize_inv s this 0 h (le_refl _) (by
    have := h.1; have := h.2.1; omega)
  have hr0 : Inv (withSize s this 0) rhs := hF0.inv_other hne2 hr hsep
  have hsep0 : Separate (withSize s this 0) this rhs := hF0.separate hne2 hr hsep
  have hv0 : (withSize s this 0).vecs rhs = s.vecs rhs := withSize_vec_other s this rhs 0 hne2
  have hc0 : ((withSize s this 0).vecs this).numCapacity = (s.vecs this).numCapacity := by
    simp [withSize_vec_this]
  have hcont0 : contents (withSize s this 0) rhs = contents s rhs :=
    hF0.contents_other hne2 hr hsep
  have key : ∀ g : State T, Inv g this → Inv g rhs → Frame this s g → g.vecs rhs = s.vecs rhs →
      contents g rhs = contents s rhs →
      (s.vecs rhs).numElements ≤ (g.vecs this).numCapacity →
      Inv (copied g this rhs) this ∧ Frame this s (copied g this rhs) ∧
        contents (copied g this rhs) this = contents s rhs ∧
        ((copied g this rhs).vecs this).numElements = (s.vecs rhs).numElements ∧
        ((copied g this rhs).vecs this).numCapacity = (g.vecs this).numCapacity := by
    intro g hg hgr hF hv hc hle
    rw [← hv] at hle
    refine ⟨copied_inv g this rhs hg hgr hle, hF.trans (copied_frame g this rhs), ?_, ?_, ?_⟩
    · rw [copied_contents g this rhs hg hgr hle, hc]
    · simp only [copied_vec_this, hv]
    · simp only [copied_vec_this]
  rw [assign_eval allocOk s this rhs hne h hr hsep] at hok
  by_cases hlt : (s.vecs this).numCapacity < (s.vecs rhs).numElements
  · rw [if_pos hlt] at hok ⊢
    cases allocOk with
    | false => simp at hok
    | true =>
      simp only [if_true, Res.ok.injEq, true_and] at hok
      subst hok
      have hF1 := resized_frame (withSize s this 0) this (s.vecs rhs).numElements
      have := key (resized (withSize s this 0) this (s.vecs rhs).numElements)
        (resized_inv _ this _ h0 (by rw [hc0]; exact hlt) (by
          have := hr.2.1; have := hr.2.2.1; omega))
        (hF1.inv_other hne2 hr0 hsep0) (hF0.trans hF1)
        (by rw [resized_vec_other _ _ _ _ hne2, hv0])
        (by rw [hF1.contents_other hne2 hr0 hsep0, hcont0])
        (by simp [resized_vec_this])
      simpa [resized_vec_this] using this
  · rw [if_neg hlt] at hok ⊢
    simp only [Res.ok.injEq, true_and] at hok
    subst hok
    have := key (withSize s this 0) h0 hr0 hF0 hv0 hcont0 (by rw [hc0]; omega)
    simpa [withSize_vec_this] using this


/-! ## The program invariant -/

theorem Good.frame {T : Type} {s t : State T} {live : List Nat} {this : Nat}
    (hg : Good ⟨s, live⟩) (hm : this ∈ live) (hF : Frame this s t) (hinv : Inv t this) :
    Good ⟨t, live⟩ := by
  obtain ⟨hI, hS⟩ := hg
  have others : ∀ j ∈ live, j ≠ this → Inv t j ∧ Separate t this j := fun j hj hne =>
    ⟨hF.inv_other hne (hI j hj) (hS this hm j hj (Ne.symm hne)),
      hF.separate hne (hI j hj) (hS this hm j hj (Ne.symm hne))⟩
  refine ⟨?_, ?_⟩
  · intro i hi
    by_cases e : i = this
    · subst e; exact hinv
    · exact (others i hi e).1
  · intro i hi j hj hij
    by_cases ei : i = this
    · subst ei
      exact (others j hj (Ne.symm hij)).2
    · by_cases ej : j = this
      · subst ej
        exact (others i hi ei).2.symm
      · have := hS i hi j hj hij
        unfold Separate at this ⊢
        rw [hF.2.1 i ei, hF.2.1 j ej]
        exact this

theorem Good.fresh {T : Type} {s : State T} {live : List Nat} {this : Nat}
    (hg : Good ⟨s, live⟩) (hm : this ∉ live) : Good ⟨fresh s this, this :: live⟩ := by
  obtain ⟨hI, hS⟩ := hg
  have hne : ∀ j ∈ live, j ≠ this := fun j hj e => hm (e ▸ hj)
  refine ⟨?_, ?_⟩
  · intro i hi
    rcases List.mem_cons.1 hi with e | hi
    · subst e; exact fresh_inv s i
    · exact fresh_inv_other s this i (hne i hi) (hI i hi)
  · intro i hi j hj hij
    rcases List.mem_cons.1 hi with ei | hi
    · subst ei; exact fresh_separate s i j
    · rcases List.mem_cons.1 hj with ej | hj
      · subst ej; exact (fresh_separate s j i).symm
      · exact fresh_separate_other s this i j (hne i hi) (hne j hj) (hS i hi j hj hij)

/-- Every successful call preserves the program invariant. -/
theorem exec_good {T : Type} [Inhabited T] (p q : Prog T) (c : Call T) (hg : Good p)
    (hq : exec p c = some q) : Good q := by
  obtain ⟨s, live⟩ := p
  unfold exec at hq
  by_cases hwf : c.wellFormed live = true
  · simp only [hwf, if_true] at hq
    cases c with
    | ctorDefault this =>
      simp only [Call.wellFormed, decide_eq_true_eq] at hwf
      simp only [Call.run, vector_default_eval, Call.liveAfter, Option.some.injEq] at hq
      subst hq
      exact hg.fresh hwf
    | ctorSized ok this r =>
      simp only [Call.wellFormed, Bool.and_eq_true, decide_eq_true_eq, isInt] at hwf
      obtain ⟨hm, _, hmax⟩ := hwf
      have hgf := hg.fresh hm
      simp only [Call.run, vector_sized_eval, Call.liveAfter] at hq
      by_cases hneg : r < 0
      · simp [hneg] at hq
      · by_cases hz : r = 0
        · subst hz
          simp only [lt_irrefl, if_false, if_true, Option.some.injEq] at hq
          subst hq
          exact hgf
        · cases ok with
          | false => simp [hneg, hz] at hq
          | true =>
            simp only [hneg, hz, if_false, if_true, Option.some.injEq] at hq
            subst hq
            have hpos : (0 : Int) < r := by omega
            have hi := resized_inv (fresh s this) this r (fresh_inv s this)
              (by rw [fresh_vec_this]; exact hpos) hmax
            exact hgf.frame (List.mem_cons_self _ _)
              ((resized_frame _ this r).trans (withSize_frame _ this r))
              (withSize_inv _ this r hi (by omega) (by simp [resized_vec_this]))
    | ctorFill ok this r t =>
      simp only [Call.wellFormed, Bool.and_eq_true, decide_eq_true_eq] at hwf
      simp only [Call.run, vector_fill_eval, Call.liveAfter] at hq
      by_cases hz : r = 0
      · simp only [hz, if_true, Option.some.injEq] at hq
        subst hq
        exact hg.fresh hwf.1
      · simp [hz] at hq
    | ctorCopy ok this rhs =>
      simp only [Call.wellFormed, Bool.and_eq_true, decide_eq_true_eq] at hwf
      obtain ⟨hm, hrm⟩ := hwf
      have hne : this ≠ rhs := fun e => hm (e ▸ hrm)
      have hgf := hg.fresh hm
      simp only [Call.run, vector_copy_eval ok s this rhs hne, Call.liveAfter] at hq
      by_cases hz : (s.vecs rhs).numElements = 0
      · simp only [hz, if_true, Option.some.injEq] at hq
        subst hq
        exact hgf
      · simp only [hz, if_false] at hq
        cases hres : assign ok this rhs (fresh s this) with
        | ok a s1 =>
          rw [hres] at hq
          simp only [Option.some.injEq] at hq
          subst hq
          have hpost := assign_post ok (fresh s this) s1 this rhs hne (fresh_inv s this)
            (hgf.1 rhs (List.mem_cons_of_mem _ hrm)) (fresh_separate s this rhs) hres
          exact hgf.frame (List.mem_cons_self _ _) hpost.2.1 hpost.1
        | thrown e s1 => rw [hres] at hq; cases hq
        | assertFail => rw [hres] at hq; cases hq
        | undefined => rw [hres] at hq; cases hq
    | pushBack ok this t =>
      simp only [Call.wellFormed, decide_eq_true_eq] at hwf
      simp only [Call.run, Call.liveAfter] at hq
      cases hres : push_back ok this t s with
      | ok a s1 =>
        rw [hres] at hq
        simp only [Option.some.injEq] at hq
        subst hq
        obtain ⟨_, _, hinv1, hF, _⟩ := push_back_post_arg ok s s1 this t (hg.1 this hwf) hres
        exact hg.frame hwf hF hinv1
      | thrown e s1 => rw [hres] at hq; cases hq
      | assertFail => rw [hres] at hq; cases hq
      | undefined => rw [hres] at hq; cases hq
    | clear this =>
      simp only [Call.wellFormed, decide_eq_true_eq] at hwf
      simp only [Call.run, clear_eval, Call.liveAfter, Option.some.injEq] at hq
      subst hq
      have hi : Inv s this := hg.1 this hwf
      exact hg.frame hwf (withSize_frame s this 0)
        (withSize_inv s this 0 hi (le_refl _) (by have := hi.1; have := hi.2.1; omega))
    | assign ok this rhs =>
      simp only [Call.wellFormed, Bool.and_eq_true, decide_eq_true_eq] at hwf
      obtain ⟨hm, hrm⟩ := hwf
      simp only [Call.run, Call.liveAfter] at hq
      have hi : Inv s this := hg.1 this hm
      by_cases e : this = rhs
      · subst e
        rw [assign_self_eval ok s this (by have := hi.1; have := hi.2.1; omega)] at hq
        simp only [Option.some.injEq] at hq
        subst hq
        exact hg.frame hm (withSize_frame s this 0)
          (withSize_inv s this 0 hi (le_refl _) (by have := hi.1; have := hi.2.1; omega))
      · cases hres : assign ok this rhs s with
        | ok a s1 =>
          rw [hres] at hq
          simp only [Option.some.injEq] at hq
          subst hq
          have hpost := assign_post ok s s1 this rhs e hi (hg.1 rhs hrm)
            (hg.2 this hm rhs hrm e) hres
          exact hg.frame hm hpost.2.1 hpost.1
        | thrown e s1 => rw [hres] at hq; cases hq
        | assertFail => rw [hres] at hq; cases hq
        | undefined => rw [hres] at hq; cases hq
    | write this i x =>
      simp only [Call.wellFormed, Bool.and_eq_true, decide_eq_true_eq] at hwf
      obtain ⟨hm, _⟩ := hwf
      have hi : Inv s this := hg.1 this hm
      simp only [Call.run, index_write_eval s this i x hi, Call.liveAfter] at hq
      by_cases hgd : i > 0 ∨ i < (s.vecs this).numElements
      · by_cases hc : 0 ≤ i ∧ i < (s.vecs this).numCapacity
        · simp only [hgd, hc, if_true, and_self, Option.some.injEq] at hq
          subst hq
          exact hg.frame hm (putSlot_frame s this _ x) (putSlot_inv s this _ x hi)
        · simp [hgd, hc] at hq
      · simp [hgd] at hq
  · simp [hwf] at hq

theorem execAll_good {T : Type} [Inhabited T] (cs : List (Call T)) :
    ∀ (p q : Prog T), Good p → execAll p cs = some q → Good q := by
  induction cs with
  | nil =>
    intro p q hg hq
    simp only [execAll, Option.some.injEq] at hq
    subst hq; exact hg
  | cons c cs ih =>
    intro p q hg hq
    simp only [execAll] at hq
    cases hres : exec p c with
    | none => rw [hres] at hq; cases hq
    | some r =>
      rw [hres] at hq
      exact ih r q (exec_good p r c hg hres) hq


/-- C1. Size/capacity invariant: in every state reached from no object at all
by a finite sequence of successful constructor, `push_back`, `clear`,
`operator=` and `operator[]` write calls, every constructed vector has
`0 <= size() <= capacity()`. -/
theorem size_le_capacity_reachable {T : Type} [Inhabited T] (s0 : State T)
    (cs : List (Call T)) (p : Prog T) (hrun : execAll ⟨s0, []⟩ cs = some p)
    (i : Nat) (hi : i ∈ p.live) :
    ∃ n c, size i p.st = .ok n p.st ∧ capacity i p.st = .ok c p.st ∧ 0 ≤ n ∧ n ≤ c := by
  have hg0 : Good (⟨s0, []⟩ : Prog T) :=
    ⟨fun _ h => absurd h (List.not_mem_nil _), fun _ h => absurd h (List.not_mem_nil _)⟩
  have hg := execAll_good cs _ p hg0 hrun
  have hinv := hg.1 i hi
  exact ⟨(p.st.vecs i).numElements, (p.st.vecs i).numCapacity, rfl, rfl, hinv.1, hinv.2.1⟩

theorem size_le_capacity_reachable_witness :
    execAll ⟨emptyState, []⟩ demoCalls = some demoProg ∧ 0 ∈ demoProg.live ∧
      ∃ n c, size 0 demoProg.st = .ok n demoProg.st ∧
        capacity 0 demoProg.st = .ok c demoProg.st ∧ 0 ≤ n ∧ n ≤ c :=
  ⟨rfl, by decide, size_le_capacity_reachable emptyState demoCalls demoProg rfl 0 (by decide)⟩


/-! ## The growth law -/

theorem capSeq_spec (m : Nat) :
    (m = 0 ∧ capSeq m = 0) ∨
      (0 < m ∧ ∃ k : Nat, capSeq m = 2 ^ k ∧ (m : Int) ≤ 2 ^ k ∧ (2 : Int) ^ k < 2 * m) := by
  induction m with
  | zero => left; exact ⟨rfl, rfl⟩
  | succ m ih =>
    right
    refine ⟨Nat.succ_pos m, ?_⟩
    rcases ih with ⟨hm, hc⟩ | ⟨hm, k, hc, hle, hlt⟩
    · subst hm
      exact ⟨0, by simp [capSeq, growCap], by simp, by simp⟩
    · have hc0 : capSeq m ≠ 0 := by rw [hc]; positivity
      by_cases hfull : capSeq m = (m : Int)
      · refine ⟨k + 1, ?_, ?_, ?_⟩
        · show growCap m (capSeq m) = 2 ^ (k + 1)
          unfold growCap
          rw [if_neg hc0, if_pos hfull, hc, pow_succ]
        · rw [pow_succ, ← hc, hfull]; push_cast; omega
        · rw [pow_succ, ← hc, hfull]; push_cast; omega
      · refine ⟨k, ?_, ?_, ?_⟩
        · show growCap m (capSeq m) = 2 ^ k
          unfold growCap
          rw [if_neg hc0, if_neg hfull, hc]
        · rw [← hc] at hle ⊢; push_cast; omega
        · push_cast; omega

theorem capSeq_mono (m : Nat) : capSeq m ≤ capSeq (m + 1) := by
  have h := capSeq_spec m
  have h0 : 0 ≤ capSeq m := by
    rcases h with ⟨_, hc⟩ | ⟨_, k, hc, _, _⟩
    · omega
    · rw [hc]; positivity
  simp only [capSeq, growCap]
  split_ifs <;> omega

theorem capSeq_mono_le {a b : Nat} (h : a ≤ b) : capSeq a ≤ capSeq b := by
  induction h with
  | refl => exact le_refl _
  | step _ ih => exact le_trans ih (capSeq_mono _)

theorem pow_two_minimal (n k j : Nat) (hlt : (2 : Int) ^ k < 2 * n) (hj : (n : Int) ≤ 2 ^ j) :
    (2 : Int) ^ k ≤ 2 ^ j := by
  by_contra hcon
  have hjk : j < k := by
    by_contra h
    exact hcon (pow_le_pow_right₀ (by norm_num) (by omega))
  have h1 : (2 : Int) ^ (j + 1) ≤ 2 ^ k := pow_le_pow_right₀ (by norm_num) hjk
  rw [pow_succ] at h1
  omega


theorem push_all_spec {T : Type} [Inhabited T] (this : Nat) (vals : List T) :
    ∀ (s : State T) (m : Nat), Inv s this → (s.vecs this).numElements = m →
      (s.vecs this).numCapacity = capSeq m → m + vals.length ≤ 1073741824 →
      ∃ s1, push_all true this vals s = .ok () s1 ∧ Inv s1 this ∧ Frame this s s1 ∧
        (s1.vecs this).numElements = ((m + vals.length : Nat) : Int) ∧
        (s1.vecs this).numCapacity = capSeq (m + vals.length) ∧
        contents s1 this = contents s this ++ vals := by
  induction vals with
  | nil =>
    intro s m hinv hn hc _
    exact ⟨s, rfl, hinv, Frame.refl this s, by simpa using hn, by simpa using hc, by simp⟩
  | cons v vs ih =>
    intro s m hinv hn hc hlen
    simp only [List.length_cons] at hlen
    obtain ⟨s1, hs1⟩ := push_back_returns s this v hinv (by
      intro hfull
      rw [hfull, hn]
      simp only [INT_MAX]
      omega)
    obtain ⟨hinv1, hF1, hcont1, hn1, hc1⟩ := push_back_post true s s1 this v hinv hs1
    have hc1' : (s1.vecs this).numCapacity = capSeq (m + 1) := by
      rw [hc1]
      show _ = growCap m (capSeq m)
      unfold growCap
      rw [hc, hn]
    obtain ⟨s2, hs2, hinv2, hF2, hn2, hc2, hcont2⟩ := ih s1 (m + 1) hinv1
      (by rw [hn1, hn]; push_cast; rfl) hc1' (by omega)
    refine ⟨s2, ?_, hinv2, hF1.trans hF2, ?_, ?_, ?_⟩
    · simp only [push_all, VM.bind, hs1, hs2]
    · rw [hn2]; simp only [List.length_cons]; congr 1; omega
    · rw [hc2]; simp only [List.length_cons]; congr 1; omega
    · rw [hcont2, hcont1]; simp

theorem pushRun_spec {T : Type} [Inhabited T] (s0 : State T) (this : Nat) (vals : List T)
    (hn : vals.length ≤ 1073741824) :
    ∃ s1, pushRun this vals s0 = .ok () s1 ∧ Inv s1 this ∧
      (s1.vecs this).numElements = (vals.length : Int) ∧
      (s1.vecs this).numCapacity = capSeq vals.length ∧ contents s1 this = vals := by
  obtain ⟨s1, hs1, hinv, _, hn1, hc1, hcont⟩ := push_all_spec this vals (fresh s0 this) 0
    (fresh_inv s0 this) (by simp [fresh_vec_this]) (by simp [fresh_vec_this, capSeq])
    (by omega)
  refine ⟨s1, ?_, hinv, ?_, ?_, ?_⟩
  · simp only [pushRun, VM.bind, vector_default_eval, hs1]
  · simpa using hn1
  · simpa using hc1
  · rw [hcont]
    have : contents (fresh s0 this) this = [] := by
      simp [contents, fresh_vec_this]
    rw [this]; rfl

/-- C2. Push growth law: `n` calls of `push_back` on a default-constructed
vector (allocations succeeding, `n` at most 2^30 so that no doubling
overflows `int`) return and give `size() == n`; `capacity()` is 0 when `n` is
0 and otherwise the smallest power of two that is at least `n`; after every
prefix of the calls the capacity is 0 or a power of two and is at most the
final capacity. -/
theorem push_growth_law {T : Type} [Inhabited T] (s0 : State T) (this : Nat) (vals : List T)
    (hn : vals.length ≤ 1073741824) :
    ∃ s1 c, pushRun this vals s0 = .ok () s1 ∧
      size this s1 = .ok (vals.length : Int) s1 ∧ capacity this s1 = .ok c s1 ∧
      (vals.length = 0 → c = 0) ∧
      (0 < vals.length → ∃ k : Nat, c = 2 ^ k ∧ (vals.length : Int) ≤ 2 ^ k ∧
        ∀ j : Nat, (vals.length : Int) ≤ 2 ^ j → (2 : Int) ^ k ≤ 2 ^ j) ∧
      (∀ m, m ≤ vals.length → ∃ sm cm, pushRun this (vals.take m) s0 = .ok () sm ∧
        size this sm = .ok (m : Int) sm ∧ capacity this sm = .ok cm sm ∧
        (cm = 0 ∨ ∃ k : Nat, cm = 2 ^ k) ∧ cm ≤ c) := by
  obtain ⟨s1, hs1, _, hn1, hc1, _⟩ := pushRun_spec s0 this vals hn
  refine ⟨s1, capSeq vals.length, hs1, ?_, ?_, ?_, ?_, ?_⟩
  · simp [size, VM.bind_apply, VM.bind, getVec, VM.pure_apply, hn1]
  · simp [capacity, VM.bind_apply, VM.bind, getVec, VM.pure_apply, hc1]
  · intro h0
    rw [h0]; rfl
  · intro hpos
    rcases capSeq_spec vals.length with ⟨h0, _⟩ | ⟨_, k, hk, hle, hlt⟩
    · omega
    · exact ⟨k, hk, hle, fun j hj => pow_two_minimal vals.length k j hlt hj⟩
  · intro m hm
    have hlen : (vals.take m).length = m := by simp [hm]
    obtain ⟨sm, hsm, _, hnm, hcm, _⟩ := pushRun_spec s0 this (vals.take m) (by omega)
    rw [hlen] at hnm hcm
    refine ⟨sm, capSeq m, hsm, ?_, ?_, ?_, capSeq_mono_le hm⟩
    · simp [size, VM.bind_apply, VM.bind, getVec, VM.pure_apply, hnm]
    · simp [capacity, VM.bind_apply, VM.bind, getVec, VM.pure_apply, hcm]
    · rcases capSeq_spec m with ⟨_, h0⟩ | ⟨_, k, hk, _, _⟩
      · left; exact h0
      · right; exact ⟨k, hk⟩

theorem push_growth_law_witness :
    [10, 20, 30].length ≤ 1073741824 ∧
    ∃ s1 c, pushRun 0 [10, 20, 30] emptyState = .ok () s1 ∧
      size 0 s1 = .ok (([10, 20, 30] : List Int).length : Int) s1 ∧ capacity 0 s1 = .ok c s1 ∧
      (([10, 20, 30] : List Int).length = 0 → c = 0) ∧
      (0 < ([10, 20, 30] : List Int).length → ∃ k : Nat, c = 2 ^ k ∧
        ((([10, 20, 30] : List Int).length : Int) ≤ 2 ^ k) ∧
        ∀ j : Nat, (([10, 20, 30] : List Int).length : Int) ≤ 2 ^ j → (2 : Int) ^ k ≤ 2 ^ j) ∧
      (∀ m, m ≤ ([10, 20, 30] : List Int).length →
        ∃ sm cm, pushRun 0 (([10, 20, 30] : List Int).take m) emptyState = .ok () sm ∧
        size 0 sm = .ok (m : Int) sm ∧ capacity 0 sm = .ok cm sm ∧
        (cm = 0 ∨ ∃ k : Nat, cm = 2 ^ k) ∧ cm ≤ c) :=
  ⟨by decide, push_growth_law emptyState 0 [10, 20, 30] (by decide)⟩


/-! ## Append and indexed access -/

theorem index_ro_contents {T : Type} (s : State T) (this : Nat) (k : Nat) (e : T)
    (h : Inv s this) (he : (contents s this)[k]? = some e) :
    index_ro this (k : Int) s = .ok e s := by
  have hlen := h.contents_length
  have hk : k < (contents s this).length := by
    by_contra hcon
    rw [List.getElem?_eq_none (by omega)] at he
    cases he
  have hc : (cellsAt s (s.vecs this).data)[k]? = some e := by
    rw [← he, contents, List.getElem?_take_of_lt (by omega)]
  rw [index_ro_eval s this k h, if_pos (Or.inr (by omega)), if_pos (by omega)]
  simp only [Int.toNat_ofNat, hc]

theorem index_rw_contents {T : Type} (s : State T) (this : Nat) (k : Nat) (e : T)
    (h : Inv s this) (he : (contents s this)[k]? = some e) :
    index_rw this (k : Int) s = .ok ((s.vecs this).data.add k) s ∧
      load ((s.vecs this).data.add k) s = .ok e s := by
  have hlen := h.contents_length
  have hk : k < (contents s this).length := by
    by_contra hcon
    rw [List.getElem?_eq_none (by omega)] at he
    cases he
  have hc : (cellsAt s (s.vecs this).data)[k]? = some e := by
    rw [← he, contents, List.getElem?_take_of_lt (by omega)]
  have hle := h.2.1
  refine ⟨?_, ?_⟩
  · rw [index_rw_eval s this k h, if_pos (Or.inr (by omega)), if_pos (by omega)]
  · rw [load_eval s this k h, if_pos (by omega)]
    simp only [Int.toNat_ofNat, hc]

theorem eq_ok_stateAfter {T : Type} (m : VM T Unit) (s : State T)
    (h : (m s).isOk = true) : m s = .ok () (stateAfter m s) := by
  unfold stateAfter
  cases hr : m s with
  | ok a t => rfl
  | thrown e t => rw [hr] at h; cases h
  | assertFail => rw [hr] at h; cases h
  | undefined => rw [hr] at h; cases h

theorem size_eval {T : Type} (s : State T) (this : Nat) :
    size this s = .ok (s.vecs this).numElements s := rfl

theorem capacity_eval {T : Type} (s : State T) (this : Nat) :
    capacity this s = .ok (s.vecs this).numCapacity s := rfl

theorem vec3State_run : pushRun 0 [1, 2, 3] emptyState = .ok () vec3State :=
  eq_ok_stateAfter (pushRun 0 [1, 2, 3]) emptyState (by decide!)

theorem vec3State_facts :
    Inv vec3State 0 ∧ (vec3State.vecs 0).numElements = 3 ∧
      (vec3State.vecs 0).numCapacity = 4 ∧
      cellsAt vec3State (vec3State.vecs 0).data = [1, 2, 3, 0] := by
  decide!

/-- C4 (the code at a failing input). On the vector `[1, 2, 3]` built by
three calls of `push_back`, both overloads of `operator[]` pass their guard
for index 3 = `size()` and return the unused fourth slot, and for index -1
they access `data[-1]`, outside the array; neither throws. -/
theorem index_out_of_range_not_rejected :
    pushRun 0 [1, 2, 3] emptyState = .ok () vec3State ∧
      size 0 vec3State = .ok 3 vec3State ∧
      index_ro 0 3 vec3State = .ok 0 vec3State ∧
      index_rw 0 3 vec3State = .ok ((vec3State.vecs 0).data.add 3) vec3State ∧
      index_ro 0 (-1) vec3State = .undefined ∧
      index_rw 0 (-1) vec3State = .undefined := by
  obtain ⟨hinv, hn, hc, hcells⟩ := vec3State_facts
  refine ⟨vec3State_run, ?_, ?_, ?_, ?_, ?_⟩
  · rw [size_eval, hn]
  · rw [index_ro_eval _ _ _ hinv, hn, hcells]; rfl
  · rw [index_rw_eval _ _ _ hinv, hn, hc]; rfl
  · rw [index_ro_eval _ _ _ hinv, hn, hcells]; rfl
  · rw [index_rw_eval _ _ _ hinv, hn, hc]; rfl

/-- C6 (the code at a failing input). On the vector `[1, 2, 3]` built by
three calls of `push_back`, the self-assignment `a = a` returns with
`size() == 0`: the logical contents `[1, 2, 3]` are lost. -/
theorem self_assignment_clears :
    pushRun 0 [1, 2, 3] emptyState = .ok () vec3State ∧
      size 0 vec3State = .ok 3 vec3State ∧ contents vec3State 0 = [1, 2, 3] ∧
      ∃ s1, assign true 0 0 vec3State = .ok () s1 ∧ size 0 s1 = .ok 0 s1 ∧
        contents s1 0 = [] := by
  obtain ⟨hinv, hn, hc, hcells⟩ := vec3State_facts
  refine ⟨vec3State_run, ?_, ?_, withSize vec3State 0 0, ?_, ?_, ?_⟩
  · rw [size_eval, hn]
  · rw [contents, hcells, hn]; rfl
  · exact assign_self_eval true vec3State 0 (by rw [hc]; decide)
  · rw [size_eval, withSize_vec_this]
  · rw [withSize_contents]; rfl


/-- C5. In-range access succeeds: on a vector satisfying the invariant, for
every index `0 <= i < size()` neither overload of `operator[]` throws, the
slot accessed lies within the allocated capacity, and the result is the
`i`-th logical element (by value for the read-only overload, as a reference
to its slot for the read/write one). -/
theorem index_in_range_succeeds {T : Type} (s : State T) (this : Nat) (i : Int)
    (h : Inv s this) (h0 : 0 ≤ i) (hlt : i < (s.vecs this).numElements) :
    ∃ e, (contents s this)[i.toNat]? = some e ∧
      index_ro this i s = .ok e s ∧
      index_rw this i s = .ok ((s.vecs this).data.add i) s ∧
      load ((s.vecs this).data.add i) s = .ok e s ∧
      i < (s.vecs this).numCapacity ∧
      i.toNat < (cellsAt s (s.vecs this).data).length := by
  have hlen := h.contents_length
  have hcl := h.cells_length
  have hle := h.2.1
  have hk : i.toNat < (contents s this).length := by omega
  refine ⟨(contents s this)[i.toNat], List.getElem?_eq_getElem hk, ?_, ?_, ?_, by omega,
    by omega⟩
  · have := index_ro_contents s this i.toNat _ h (List.getElem?_eq_getElem hk)
    rwa [Int.toNat_of_nonneg h0] at this
  · have := (index_rw_contents s this i.toNat _ h (List.getElem?_eq_getElem hk)).1
    rwa [Int.toNat_of_nonneg h0] at this
  · have := (index_rw_contents s this i.toNat _ h (List.getElem?_eq_getElem hk)).2
    rwa [Int.toNat_of_nonneg h0] at this

theorem index_in_range_succeeds_witness :
    Inv fullState 0 ∧ (0 : Int) ≤ 1 ∧ (1 : Int) < (fullState.vecs 0).numElements ∧
    ∃ e, (contents fullState 0)[(1 : Int).toNat]? = some e ∧
      index_ro 0 1 fullState = .ok e fullState ∧
      index_rw 0 1 fullState = .ok ((fullState.vecs 0).data.add 1) fullState ∧
      load ((fullState.vecs 0).data.add 1) fullState = .ok e fullState ∧
      1 < (fullState.vecs 0).numCapacity ∧
      (1 : Int).toNat < (cellsAt fullState (fullState.vecs 0).data).length :=
  ⟨by decide, by decide, by decide,
    index_in_range_succeeds fullState 0 1 (by decide) (by decide) (by decide)⟩

/-! ## Copy construction and assignment -/

theorem contents_eq_nil_of_size_zero {T : Type} (s : State T) (i : Nat)
    (h : (s.vecs i).numElements = 0) : contents s i = [] := by
  simp [contents, h]

/-- C7. Copy/assignment reproduces contents. For a source satisfying the
invariant and a destination object other than it: (1) when the destination
satisfies the invariant and owns another buffer, `dst = src` returns if the
allocator works, and whenever it returns `dst.size() == src.size()`, every
`dst[i]` equals `src[i]`, and the size, capacity and elements of `src` are
unchanged; (2) the copy constructor is the member initialisation followed,
for a non-empty source, by that assignment, it returns if the allocator works
and gives the same result, and for an empty source it gives `size() == 0`
and `capacity() == 0`. -/
theorem copy_reproduces_contents {T : Type} [Inhabited T] (s : State T) (dst src : Nat)
    (hne : dst ≠ src) (hs : Inv s src) :
    (Inv s dst → Separate s dst src →
      (∃ s1, assign true dst src s = .ok () s1) ∧
      ∀ (allocOk : Bool) (s1 : State T), assign allocOk dst src s = .ok () s1 →
        size dst s1 = .ok (s.vecs src).numElements s1 ∧
        contents s1 dst = contents s src ∧
        (∀ (k : Nat) (e : T), (contents s src)[k]? = some e →
          index_ro dst k s1 = .ok e s1 ∧ index_ro src k s1 = .ok e s1) ∧
        s1.vecs src = s.vecs src ∧ contents s1 src = contents s src) ∧
    ((∃ s1, vector_copy true dst src s = .ok () s1) ∧
      ((s.vecs src).numElements ≠ 0 → ∀ allocOk : Bool,
        vector_copy allocOk dst src s
          = VM.bind (vector_default dst) (fun _ => assign allocOk dst src) s) ∧
      ∀ (allocOk : Bool) (s1 : State T), vector_copy allocOk dst src s = .ok () s1 →
        size dst s1 = .ok (s.vecs src).numElements s1 ∧
        contents s1 dst = contents s src ∧
        (∀ (k : Nat) (e : T), (contents s src)[k]? = some e →
          index_ro dst k s1 = .ok e s1 ∧ index_ro src k s1 = .ok e s1) ∧
        s1.vecs src = s.vecs src ∧ contents s1 src = contents s src ∧
        ((s.vecs src).numElements = 0 → size dst s1 = .ok 0 s1 ∧ capacity dst s1 = .ok 0 s1)) := by
  have hne2 : src ≠ dst := Ne.symm hne
  -- what a returning assignment from a state `g` gives, in terms of `g`
  have post : ∀ (g : State T) (allocOk : Bool) (s1 : State T), Inv g dst → Inv g src →
      Separate g dst src → assign allocOk dst src g = .ok () s1 →
      size dst s1 = .ok (g.vecs src).numElements s1 ∧
        contents s1 dst = contents g src ∧
        (∀ (k : Nat) (e : T), (contents g src)[k]? = some e →
          index_ro dst k s1 = .ok e s1 ∧ index_ro src k s1 = .ok e s1) ∧
        s1.vecs src = g.vecs src ∧ contents s1 src = contents g src := by
    intro g allocOk s1 hgd hgs hgsep hok
    obtain ⟨hinv1, hF, hcont, hn, _⟩ := assign_post allocOk g s1 dst src hne hgd hgs hgsep hok
    have hsrc1 : Inv s1 src := hF.inv_other hne2 hgs hgsep
    have hcsrc : contents s1 src = contents g src := hF.contents_other hne2 hgs hgsep
    refine ⟨by rw [size_eval, hn], hcont, ?_, hF.2.1 src hne2, hcsrc⟩
    intro k e he
    exact ⟨index_ro_contents s1 dst k e hinv1 (by rw [hcont]; exact he),
      index_ro_contents s1 src k e hsrc1 (by rw [hcsrc]; exact he)⟩
  have returns : ∀ g : State T, Inv g dst → Inv g src → Separate g dst src →
      ∃ s1, assign true dst src g = .ok () s1 := by
    intro g hgd hgs hgsep
    rw [assign_eval true g dst src hne hgd hgs hgsep]
    by_cases hlt : (g.vecs dst).numCapacity < (g.vecs src).numElements
    · exact ⟨_, by rw [if_pos hlt]; rfl⟩
    · exact ⟨_, by rw [if_neg hlt]⟩
  have hfd := fresh_inv s dst
  have hfs := fresh_inv_other s dst src hne2 hs
  have hfsep := fresh_separate s dst src
  have hfv : (fresh s dst).vecs src = s.vecs src := fresh_vec_other s dst src hne2
  have hfc : contents (fresh s dst) src = contents s src := fresh_contents_other s dst src hne2
  refine ⟨fun hd hsep => ⟨returns s hd hs hsep, fun allocOk s1 hok => post s allocOk s1 hd hs hsep hok⟩,
    ?_, ?_, ?_⟩
  · rw [vector_copy_eval true s dst src hne]
    by_cases hz : (s.vecs src).numElements = 0
    · exact ⟨_, by rw [if_pos hz]⟩
    · rw [if_neg hz]
      exact returns (fresh s dst) hfd hfs hfsep
  · intro hnz allocOk
    rw [vector_copy_eval allocOk s dst src hne, if_neg hnz]
    rfl
  · intro allocOk s1 hok
    rw [vector_copy_eval allocOk s dst src hne] at hok
    by_cases hz : (s.vecs src).numElements = 0
    · rw [if_pos hz] at hok
      simp only [Res.ok.injEq, true_and] at hok
      subst hok
      have hc0 : contents s src = [] := contents_eq_nil_of_size_zero s src hz
      refine ⟨by rw [size_eval, fresh_vec_this, hz], ?_, ?_, hfv, hfc, fun _ => ⟨by
        rw [size_eval, fresh_vec_this], by rw [capacity_eval, fresh_vec_this]⟩⟩
      · rw [hc0]; exact contents_eq_nil_of_size_zero _ _ (by rw [fresh_vec_this])
      · intro k e he
        rw [hc0] at he
        simp at he
    · rw [if_neg hz] at hok
      obtain ⟨h1, h2, h3, h4, h5⟩ := post (fresh s dst) allocOk s1 hfd hfs hfsep hok
      rw [hfv] at h1 h4
      rw [hfc] at h2 h3 h5
      exact ⟨h1, h2, h3, h4, h5, fun h => absurd h hz⟩


theorem copy_reproduces_contents_witness :
    (1 : Nat) ≠ 0 ∧ Inv twoVecState 0 ∧
    ((Inv twoVecState 1 → Separate twoVecState 1 0 →
      (∃ s1, assign true 1 0 twoVecState = .ok () s1) ∧
      ∀ (allocOk : Bool) (s1 : State Int), assign allocOk 1 0 twoVecState = .ok () s1 →
        size 1 s1 = .ok (twoVecState.vecs 0).numElements s1 ∧
        contents s1 1 = contents twoVecState 0 ∧
        (∀ (k : Nat) (e : Int), (contents twoVecState 0)[k]? = some e →
          index_ro 1 k s1 = .ok e s1 ∧ index_ro 0 k s1 = .ok e s1) ∧
        s1.vecs 0 = twoVecState.vecs 0 ∧ contents s1 0 = contents twoVecState 0) ∧
    ((∃ s1, vector_copy true 1 0 twoVecState = .ok () s1) ∧
      ((twoVecState.vecs 0).numElements ≠ 0 → ∀ allocOk : Bool,
        vector_copy allocOk 1 0 twoVecState
          = VM.bind (vector_default 1) (fun _ => assign allocOk 1 0) twoVecState) ∧
      ∀ (allocOk : Bool) (s1 : State Int), vector_copy allocOk 1 0 twoVecState = .ok () s1 →
        size 1 s1 = .ok (twoVecState.vecs 0).numElements s1 ∧
        contents s1 1 = contents twoVecState 0 ∧
        (∀ (k : Nat) (e : Int), (contents twoVecState 0)[k]? = some e →
          index_ro 1 k s1 = .ok e s1 ∧ index_ro 0 k s1 = .ok e s1) ∧
        s1.vecs 0 = twoVecState.vecs 0 ∧ contents s1 0 = contents twoVecState 0 ∧
        ((twoVecState.vecs 0).numElements = 0 →
          size 1 s1 = .ok 0 s1 ∧ capacity 1 s1 = .ok 0 s1))) :=
  ⟨by decide, by decide, copy_reproduces_contents twoVecState 1 0 (by decide) (by decide)⟩

/-- C8. Copy independence: after `b = copy(a)` of a non-empty vector `a`
satisfying the invariant, the copy constructor returns if the allocator
works; a write `b[i] = v` returns for every `i < a.size()`; and no returning
write through `b[i]`, `push_back` on `b` (of any argument, also one that
refers into `a`) or `clear` of `b` changes `a`: its
data members (size, capacity, buffer pointer), its buffer and so its logical
contents are the same as before the copy. -/
theorem copy_independent {T : Type} [Inhabited T] (s : State T) (a b : Nat) (hne : b ≠ a)
    (ha : Inv s a) (hpos : 0 < (s.vecs a).numElements) :
    (∃ s1, vector_copy true b a s = .ok () s1) ∧
    ∀ (allocOk : Bool) (s1 : State T), vector_copy allocOk b a s = .ok () s1 →
      (∀ (i : Int) (v : T), 0 ≤ i → i < (s.vecs a).numElements →
        ∃ s2, index_write b i v s1 = .ok () s2) ∧
      (∀ (i : Int) (v : T) (s2 : State T), index_write b i v s1 = .ok () s2 →
        s2.vecs a = s.vecs a ∧ cellsAt s2 (s2.vecs a).data = cellsAt s (s.vecs a).data ∧
          contents s2 a = contents s a) ∧
      (∀ (ok : Bool) (t : Arg T) (s2 : State T), push_back ok b t s1 = .ok () s2 →
        s2.vecs a = s.vecs a ∧ cellsAt s2 (s2.vecs a).data = cellsAt s (s.vecs a).data ∧
          contents s2 a = contents s a) ∧
      (∀ s2 : State T, clear b s1 = .ok () s2 →
        s2.vecs a = s.vecs a ∧ cellsAt s2 (s2.vecs a).data = cellsAt s (s.vecs a).data ∧
          contents s2 a = contents s a) := by
  have hne2 : a ≠ b := Ne.symm hne
  have hnz : (s.vecs a).numElements ≠ 0 := by omega
  have hfb := fresh_inv s b
  have hfa := fresh_inv_other s b a hne2 ha
  have hfsep := fresh_separate s b a
  have hfv : (fresh s b).vecs a = s.vecs a := fresh_vec_other s b a hne2
  have hfcells : cellsAt (fresh s b) ((fresh s b).vecs a).data = cellsAt s (s.vecs a).data := by
    rw [hfv]; cases (s.vecs a).data <;> rfl
  have hfc : contents (fresh s b) a = contents s a := fresh_contents_other s b a hne2
  refine ⟨?_, ?_⟩
  · rw [vector_copy_eval true s b a hne, if_neg hnz,
      assign_eval true (fresh s b) b a hne hfb hfa hfsep]
    by_cases hlt : ((fresh s b).vecs b).numCapacity < ((fresh s b).vecs a).numElements
    · exact ⟨_, by rw [if_pos hlt]; rfl⟩
    · exact ⟨_, by rw [if_neg hlt]⟩
  · intro allocOk s1 hok
    rw [vector_copy_eval allocOk s b a hne, if_neg hnz] at hok
    obtain ⟨hb1, hF1, _, hn1, _⟩ := assign_post allocOk (fresh s b) s1 b a hne hfb hfa hfsep hok
    have ha1 : Inv s1 a := hF1.inv_other hne2 hfa hfsep
    have hsep1 : Separate s1 b a := hF1.separate hne2 hfa hfsep
    have hv1 : s1.vecs a = s.vecs a := (hF1.2.1 a hne2).trans hfv
    have hcells1 : cellsAt s1 (s1.vecs a).data = cellsAt s (s.vecs a).data :=
      (hF1.cells_other hne2 hfa hfsep).trans hfcells
    have hc1 : contents s1 a = contents s a := (hF1.contents_other hne2 hfa hfsep).trans hfc
    -- any further step on `b` framed away from `a`
    have frame : ∀ s2 : State T, Frame b s1 s2 →
        s2.vecs a = s.vecs a ∧ cellsAt s2 (s2.vecs a).data = cellsAt s (s.vecs a).data ∧
          contents s2 a = contents s a := fun s2 hF2 =>
      ⟨(hF2.2.1 a hne2).trans hv1, (hF2.cells_other hne2 ha1 hsep1).trans hcells1,
        (hF2.contents_other hne2 ha1 hsep1).trans hc1⟩
    rw [hfv] at hn1
    refine ⟨?_, ?_, ?_, ?_⟩
    · intro i v h0 hlt
      rw [index_write_eval s1 b i v hb1, if_pos (Or.inr (by rw [hn1]; exact hlt)),
        if_pos ⟨h0, by have := hb1.2.1; omega⟩]
      exact ⟨_, rfl⟩
    · intro i v s2 hw
      rw [index_write_eval s1 b i v hb1] at hw
      by_cases hg : i > 0 ∨ i < (s1.vecs b).numElements
      · by_cases hc : 0 ≤ i ∧ i < (s1.vecs b).numCapacity
        · rw [if_pos hg, if_pos hc] at hw
          simp only [Res.ok.injEq, true_and] at hw
          subst hw
          exact frame _ (putSlot_frame s1 b _ v)
        · rw [if_pos hg, if_neg hc] at hw; cases hw
      · rw [if_neg hg] at hw; cases hw
    · intro ok t s2 hp
      obtain ⟨_, _, _, hF2, _⟩ := push_back_post_arg ok s1 s2 b t hb1 hp
      exact frame s2 hF2
    · intro s2 hcl
      rw [clear_eval] at hcl
      simp only [Res.ok.injEq, true_and] at hcl
      subst hcl
      exact frame _ (withSize_frame s1 b 0)


theorem copy_independent_witness :
    (2 : Nat) ≠ 0 ∧ Inv twoVecState 0 ∧ 0 < (twoVecState.vecs 0).numElements ∧
    ((∃ s1, vector_copy true 2 0 twoVecState = .ok () s1) ∧
    ∀ (allocOk : Bool) (s1 : State Int), vector_copy allocOk 2 0 twoVecState = .ok () s1 →
      (∀ (i : Int) (v : Int), 0 ≤ i → i < (twoVecState.vecs 0).numElements →
        ∃ s2, index_write 2 i v s1 = .ok () s2) ∧
      (∀ (i : Int) (v : Int) (s2 : State Int), index_write 2 i v s1 = .ok () s2 →
        s2.vecs 0 = twoVecState.vecs 0 ∧
          cellsAt s2 (s2.vecs 0).data = cellsAt twoVecState (twoVecState.vecs 0).data ∧
          contents s2 0 = contents twoVecState 0) ∧
      (∀ (ok : Bool) (t : Arg Int) (s2 : State Int), push_back ok 2 t s1 = .ok () s2 →
        s2.vecs 0 = twoVecState.vecs 0 ∧
          cellsAt s2 (s2.vecs 0).data = cellsAt twoVecState (twoVecState.vecs 0).data ∧
          contents s2 0 = contents twoVecState 0) ∧
      (∀ s2 : State Int, clear 2 s1 = .ok () s2 →
        s2.vecs 0 = twoVecState.vecs 0 ∧
          cellsAt s2 (s2.vecs 0).data = cellsAt twoVecState (twoVecState.vecs 0).data ∧
          contents s2 0 = contents twoVecState 0)) :=
  ⟨by decide, by decide, by decide,
    copy_independent twoVecState 0 2 (by decide) (by decide) (by decide)⟩

/-! ## Iteration -/

theorem forwardFrom_block {T : Type} (s : State T) (b : Nat) (ca : List T) (n : Nat)
    (hb : s.blocks b = some ca) (hn : n ≤ ca.length) :
    ∀ (fuel i : Nat), i ≤ n →
      forwardFrom ⟨.loc b n⟩ fuel ⟨.loc b i⟩ s
        = .ok (if n - i ≤ fuel then some ((ca.take n).drop i) else none) s := by
  intro fuel
  induction fuel with
  | zero =>
    intro i hi
    by_cases e : i = n
    · subst e
      simp [forwardFrom, iterator.ne, VM.pure_apply]
    · have hne : (Ptr.loc b (n : Int)) ≠ Ptr.loc b (i : Int) := by
        intro h; injection h with _ h2; omega
      have hlt : ¬ (n - i ≤ 0) := by omega
      simp [forwardFrom, iterator.ne, hne, VM.pure_apply, hlt]
  | succ f ih =>
    intro i hi
    by_cases e : i = n
    · subst e
      simp [forwardFrom, iterator.ne, VM.pure_apply]
    · have hne : (Ptr.loc b (n : Int)) ≠ Ptr.loc b (i : Int) := by
        intro h; injection h with _ h2; omega
      have hil : i < ca.length := by omega
      have hload : (iterator.deref ⟨.loc b i⟩ : VM T T) s = .ok ca[i] s := by
        simp [iterator.deref, load, hb, hil]
      have hnext : (iterator.preInc ⟨.loc b i⟩) = ⟨.loc b ((i + 1 : Nat) : Int)⟩ := by
        simp [iterator.preInc, Ptr.add]
      have hrec := ih (i + 1) (by omega)
      have hdrop : (ca.take n).drop i = ca[i] :: (ca.take n).drop (i + 1) := by
        rw [List.drop_eq_getElem_cons (by simp; omega)]
        simp
      unfold forwardFrom
      simp only [iterator.ne, hne, decide_True, if_true, VM.bind_apply, VM.bind, hload, hnext,
        hrec, VM.pure_apply, ne_eq, not_false_eq_true]
      by_cases hfl : n - (i + 1) ≤ f
      · have : n - i ≤ f + 1 := by omega
        simp [hfl, this, hdrop]
      · have : ¬ (n - i ≤ f + 1) := by omega
        simp [hfl, this]


theorem cforwardFrom_block {T : Type} (s : State T) (b : Nat) (ca : List T) (n : Nat)
    (hb : s.blocks b = some ca) (hn : n ≤ ca.length) :
    ∀ (fuel i : Nat), i ≤ n →
      cforwardFrom ⟨.loc b n⟩ fuel ⟨.loc b i⟩ s
        = .ok (if n - i ≤ fuel then some ((ca.take n).drop i) else none) s := by
  intro fuel
  induction fuel with
  | zero =>
    intro i hi
    by_cases e : i = n
    · subst e
      simp [cforwardFrom, const_iterator.ne, VM.pure_apply]
    · have hne : (Ptr.loc b (n : Int)) ≠ Ptr.loc b (i : Int) := by
        intro h; injection h with _ h2; omega
      have hlt : ¬ (n - i ≤ 0) := by omega
      simp [cforwardFrom, const_iterator.ne, hne, VM.pure_apply, hlt]
  | succ f ih =>
    intro i hi
    by_cases e : i = n
    · subst e
      simp [cforwardFrom, const_iterator.ne, VM.pure_apply]
    · have hne : (Ptr.loc b (n : Int)) ≠ Ptr.loc b (i : Int) := by
        intro h; injection h with _ h2; omega
      have hil : i < ca.length := by omega
      have hload : (const_iterator.deref ⟨.loc b i⟩ : VM T T) s = .ok ca[i] s := by
        simp [const_iterator.deref, load, hb, hil]
      have hnext : (const_iterator.preInc ⟨.loc b i⟩) = ⟨.loc b ((i + 1 : Nat) : Int)⟩ := by
        simp [const_iterator.preInc, Ptr.add]
      have hrec := ih (i + 1) (by omega)
      have hdrop : (ca.take n).drop i = ca[i] :: (ca.take n).drop (i + 1) := by
        rw [List.drop_eq_getElem_cons (by simp; omega)]
        simp
      unfold cforwardFrom
      simp only [const_iterator.ne, hne, decide_True, if_true, VM.bind_apply, VM.bind, hload, hnext,
        hrec, VM.pure_apply, ne_eq, not_false_eq_true]
      by_cases hfl : n - (i + 1) ≤ f
      · have : n - i ≤ f + 1 := by omega
        simp [hfl, this, hdrop]
      · have : ¬ (n - i ≤ f + 1) := by omega
        simp [hfl, this]


theorem backwardFrom_block {T : Type} (s : State T) (b : Nat) (ca : List T)
    (hb : s.blocks b = some ca) :
    ∀ (fuel i : Nat), i < ca.length →
      backwardFrom ⟨.loc b 0⟩ fuel ⟨.loc b i⟩ s
        = .ok (if i + 1 ≤ fuel then some ((ca.take (i + 1)).reverse) else none) s := by
  intro fuel
  induction fuel with
  | zero =>
    intro i _
    simp [backwardFrom, VM.pure_apply]
  | succ f ih =>
    intro i hi
    have hload : (iterator.deref ⟨.loc b i⟩ : VM T T) s = .ok ca[i] s := by
      simp [iterator.deref, load, hb, hi]
    have htake : (ca.take (i + 1)).reverse = ca[i] :: (ca.take i).reverse := by
      rw [List.take_succ, List.getElem?_eq_getElem hi]
      simp
    cases i with
    | zero =>
      simp only [Nat.cast_zero] at hload
      simp only [backwardFrom, VM.bind_apply, VM.bind, hload, iterator.eq, Nat.cast_zero,
        decide_True, if_true, VM.pure_apply]
      simp [htake]
    | succ j =>
      have hne : ¬ ((Ptr.loc b 0) = Ptr.loc b (((j + 1 : Nat) : Int))) := by
        intro h; injection h with _ h2; omega
      have hprev : (iterator.preDec ⟨.loc b ((j + 1 : Nat) : Int)⟩) = ⟨.loc b (j : Int)⟩ := by
        simp [iterator.preDec, Ptr.add]
      have hrec := ih j (by omega)
      simp only [backwardFrom, VM.bind_apply, VM.bind, hload, iterator.eq, hne, decide_False,
        Bool.false_eq_true, if_false, hprev, hrec, VM.pure_apply]
      by_cases hfl : j + 1 ≤ f
      · have : j + 1 + 1 ≤ f + 1 := by omega
        simp [hfl, this, htake]
      · have : ¬ (j + 1 + 1 ≤ f + 1) := by omega
        simp [hfl, this]

/-- C9. Forward iteration completeness: on a vector satisfying the invariant
with `n` logical elements, the loop from `begin()` to `end()` (dereference,
then increment) has not finished after fewer than `n` iterations and has
finished after `n`, having visited exactly the logical contents in order; the
same holds for `cbegin()` / `cend()`. -/
theorem forward_iteration_complete {T : Type} (s : State T) (this : Nat) (h : Inv s this)
    (fuel : Nat) :
    (contents s this).length = (s.vecs this).numElements.toNat ∧
    walkForward fuel this s
      = .ok (if (s.vecs this).numElements.toNat ≤ fuel then some (contents s this) else none) s ∧
    cwalkForward fuel this s
      = .ok (if (s.vecs this).numElements.toNat ≤ fuel then some (contents s this) else none) s := by
  have hlen := h.contents_length
  have h0 := h.1
  have hle := h.2.1
  refine ⟨hlen, ?_, ?_⟩
  · cases hd : (s.vecs this).data with
    | null =>
      have hc : contents s this = [] := by simp [contents, hd, cellsAt]
      have hz : (s.vecs this).numElements.toNat = 0 := by rw [← hlen, hc]; rfl
      simp [walkForward, VM.bind_apply, VM.bind, end_, begin, dataOf, size, getVec,
        VM.pure_apply, hd, Ptr.add, forwardFrom, iterator.ne, hc, hz]
      cases fuel <;> simp [forwardFrom, iterator.ne, VM.pure_apply]
    | loc b o =>
      obtain ⟨ho, _, ca, hca, hcl⟩ := h.block hd
      subst ho
      have hrec := forwardFrom_block s b ca (s.vecs this).numElements.toNat hca (by omega)
        fuel 0 (Nat.zero_le _)
      have hc : contents s this = ca.take (s.vecs this).numElements.toNat := by
        simp [contents, hd, cellsAt, hca]
      simp only [Nat.cast_zero, Nat.sub_zero, List.drop_zero, Int.toNat_of_nonneg h0] at hrec
      simp only [walkForward, VM.bind_apply, VM.bind, end_, begin, dataOf, size, getVec,
        VM.pure_apply, hd, Ptr.add, zero_add, hrec, hc]
  · cases hd : (s.vecs this).data with
    | null =>
      have hc : contents s this = [] := by simp [contents, hd, cellsAt]
      have hz : (s.vecs this).numElements.toNat = 0 := by rw [← hlen, hc]; rfl
      simp [cwalkForward, VM.bind_apply, VM.bind, cend, cbegin, dataOf, size, getVec,
        VM.pure_apply, hd, Ptr.add, cforwardFrom, const_iterator.ne, hc, hz]
      cases fuel <;> simp [cforwardFrom, const_iterator.ne, VM.pure_apply]
    | loc b o =>
      obtain ⟨ho, _, ca, hca, hcl⟩ := h.block hd
      subst ho
      have hrec := cforwardFrom_block s b ca (s.vecs this).numElements.toNat hca (by omega)
        fuel 0 (Nat.zero_le _)
      have hc : contents s this = ca.take (s.vecs this).numElements.toNat := by
        simp [contents, hd, cellsAt, hca]
      simp only [Nat.cast_zero, Nat.sub_zero, List.drop_zero, Int.toNat_of_nonneg h0] at hrec
      simp only [cwalkForward, VM.bind_apply, VM.bind, cend, cbegin, dataOf, size, getVec,
        VM.pure_apply, hd, Ptr.add, zero_add, hrec, hc]

theorem forward_iteration_complete_witness :
    Inv twoVecState 0 ∧
    ((contents twoVecState 0).length = (twoVecState.vecs 0).numElements.toNat ∧
    walkForward 5 0 twoVecState
      = .ok (if (twoVecState.vecs 0).numElements.toNat ≤ 5 then some (contents twoVecState 0)
          else none) twoVecState ∧
    cwalkForward 5 0 twoVecState
      = .ok (if (twoVecState.vecs 0).numElements.toNat ≤ 5 then some (contents twoVecState 0)
          else none) twoVecState) :=
  ⟨by decide, forward_iteration_complete twoVecState 0 (by decide) 5⟩

/-- C10. Backward iteration: on a non-empty vector satisfying the invariant
with `n` logical elements, starting at `end()`, decrementing once, then
dereferencing and decrementing until the cursor just dereferenced equals
`begin()`, has not finished after fewer than `n` iterations and has finished
after `n`, having visited exactly the logical contents in reverse order. -/
theorem backward_iteration_reverse {T : Type} (s : State T) (this : Nat) (h : Inv s this)
    (hpos : 0 < (s.vecs this).numElements) (fuel : Nat) :
    (contents s this).length = (s.vecs this).numElements.toNat ∧
    walkBackward fuel this s
      = .ok (if (s.vecs this).numElements.toNat ≤ fuel then some (contents s this).reverse
          else none) s := by
  have hlen := h.contents_length
  have hle := h.2.1
  refine ⟨hlen, ?_⟩
  obtain ⟨b, hd⟩ := h.data_ne_null (by omega)
  obtain ⟨_, _, ca, hca, hcl⟩ := h.block hd
  have hrec := backwardFrom_block s b ca hca fuel ((s.vecs this).numElements.toNat - 1)
    (by omega)
  have hcast : (((s.vecs this).numElements.toNat - 1 : Nat) : Int)
      = (s.vecs this).numElements + -1 := by omega
  have hsucc : (s.vecs this).numElements.toNat - 1 + 1 = (s.vecs this).numElements.toNat := by
    omega
  have hc : contents s this = ca.take (s.vecs this).numElements.toNat := by
    simp [contents, hd, cellsAt, hca]
  rw [hcast, hsucc] at hrec
  simp only [walkBackward, VM.bind_apply, VM.bind, end_, begin, dataOf, size, getVec,
    VM.pure_apply, hd, Ptr.add, zero_add, iterator.preDec, hrec, hc]

theorem backward_iteration_reverse_witness :
    Inv twoVecState 0 ∧ 0 < (twoVecState.vecs 0).numElements ∧
    ((contents twoVecState 0).length = (twoVecState.vecs 0).numElements.toNat ∧
    walkBackward 3 0 twoVecState
      = .ok (if (twoVecState.vecs 0).numElements.toNat ≤ 3
          then some (contents twoVecState 0).reverse else none) twoVecState) :=
  ⟨by decide, by decide, backward_iteration_reverse twoVecState 0 (by decide) (by decide) 3⟩

/-! ## Clear, sized and fill construction, growth precondition, allocation failure -/

theorem empty_eval {T : Type} (s : State T) (this : Nat) :
    empty this s = .ok (decide ((s.vecs this).numElements = 0)) s := rfl

/-- C11. Clear semantics: `clear()` always returns; afterwards `size() == 0`,
`empty()` is true and `capacity()` is what it was before the call; the buffer
pointer and every heap array are untouched (nothing is released or
shrunk). -/
theorem clear_semantics {T : Type} (s : State T) (this : Nat) :
    ∃ s1, clear this s = .ok () s1 ∧
      size this s1 = .ok 0 s1 ∧ empty this s1 = .ok true s1 ∧
      capacity this s = .ok (s.vecs this).numCapacity s ∧
      capacity this s1 = .ok (s.vecs this).numCapacity s1 ∧
      (s1.vecs this).data = (s.vecs this).data ∧ s1.blocks = s.blocks ∧ s1.next = s.next := by
  refine ⟨withSize s this 0, clear_eval s this, ?_, ?_, rfl, ?_, ?_, rfl, rfl⟩
  · rw [size_eval, withSize_vec_this]
  · rw [empty_eval, withSize_vec_this]; rfl
  · rw [capacity_eval, withSize_vec_this]
  · rw [withSize_vec_this]

theorem resized_cells_length {T : Type} [Inhabited T] (s : State T) (this : Nat) (c : Int)
    (h : Inv s this) (hc : (s.vecs this).numCapacity < c) (hmax : c ≤ INT_MAX) :
    ((cellsAt (resized s this c) ((resized s this c).vecs this).data).length : Int) = c := by
  have := (resized_inv s this c h hc hmax).cells_length
  rwa [resized_vec_this] at this ⊢

/-- C12. Sized constructor: `vector(count)` fails its assertion exactly when
`count < 0`, whatever the allocator does; with a working allocator it returns
exactly when `count >= 0`; for `count == 0` it returns in the default state
(`size() == 0`, `capacity() == 0`, `data == NULL`) without touching the heap;
for `count > 0` (a value of `int`) it returns with `size() == count`,
`capacity() == count` and a buffer of `count` slots. -/
theorem sized_constructor {T : Type} [Inhabited T] (allocOk : Bool) (s : State T) (this : Nat)
    (count : Int) :
    (vector_sized allocOk this count s = .assertFail ↔ count < 0) ∧
    ((∃ s1, vector_sized true this count s = .ok () s1) ↔ 0 ≤ count) ∧
    (count = 0 → ∃ s1, vector_sized allocOk this count s = .ok () s1 ∧
      size this s1 = .ok 0 s1 ∧ capacity this s1 = .ok 0 s1 ∧
      (s1.vecs this).data = Ptr.null ∧ s1.blocks = s.blocks ∧ s1.next = s.next) ∧
    (0 < count → count ≤ INT_MAX → ∃ s1, vector_sized true this count s = .ok () s1 ∧
      size this s1 = .ok count s1 ∧ capacity this s1 = .ok count s1 ∧
      ((cellsAt s1 (s1.vecs this).data).length : Int) = count) := by
  have hev := vector_sized_eval allocOk s this count
  have hevt := vector_sized_eval true s this count
  refine ⟨?_, ?_, ?_, ?_⟩
  · rw [hev]
    by_cases hneg : count < 0
    · simp [hneg]
    · by_cases hz : count = 0
      · simp [hneg, hz]
      · cases allocOk <;> simp [hneg, hz]
  · rw [hevt]
    by_cases hneg : count < 0
    · simp only [hneg, if_true]
      constructor
      · rintro ⟨s1, h⟩; cases h
      · intro h; omega
    · by_cases hz : count = 0
      · simp only [hneg, hz, if_false, if_true]
        exact ⟨fun _ => by omega, fun _ => ⟨_, rfl⟩⟩
      · simp only [hneg, hz, if_false, if_true]
        exact ⟨fun _ => by omega, fun _ => ⟨_, rfl⟩⟩
  · intro hz
    subst hz
    refine ⟨fresh s this, ?_, ?_, ?_, ?_, rfl, rfl⟩
    · rw [hev]; simp
    · rw [size_eval, fresh_vec_this]
    · rw [capacity_eval, fresh_vec_this]
    · rw [fresh_vec_this]
  · intro hpos hmax
    have hneg : ¬ count < 0 := by omega
    have hz : ¬ count = 0 := by omega
    have hc : ((fresh s this).vecs this).numCapacity < count := by
      rw [fresh_vec_this]; exact hpos
    refine ⟨withSize (resized (fresh s this) this count) this count, ?_, ?_, ?_, ?_⟩
    · rw [hevt]; simp [hneg, hz]
    · rw [size_eval, withSize_vec_this]
    · rw [capacity_eval, withSize_vec_this, resized_vec_this]
    · rw [withSize_vec_this, withSize_cells]
      have := resized_cells_length (fresh s this) this count (fresh_inv s this) hc hmax
      simpa [resized_vec_this] using this

/-- C13 (the code on the failing inputs). `vector(count, t)` with
`count > 0` never returns: the assertion of the fill variant of `resize`,
`newCapacity > 0 && newCapacity > newCapacity`, is false for every argument,
whatever the allocator does; at `vector(3, 7)` the constructor aborts, while
the sized constructor `vector(3)`, whose `resize` compares with
`numCapacity`, returns with `size() == 3`. -/
theorem fill_constructor_aborts :
    vector_fill true 0 3 7 emptyState = .assertFail ∧
    (∀ (T : Type) [Inhabited T] (allocOk : Bool) (s : State T) (this : Nat) (c : Int) (t : T),
      resizeFill allocOk this c t s = .assertFail) ∧
    (∀ (T : Type) [Inhabited T] (allocOk : Bool) (s : State T) (this : Nat) (k : Nat) (t : T),
      vector_fill allocOk this ((k : Int) + 1) t s = .assertFail) ∧
    ∃ s1, vector_sized true 0 3 emptyState = .ok () s1 ∧ size 0 s1 = .ok 3 s1 := by
  refine ⟨?_, ?_, ?_, ?_⟩
  · rw [vector_fill_eval]; rfl
  · intro T _ allocOk s this c t
    simp [resizeFill, VM.bind_apply, VM.bind, cassert]
  · intro T _ allocOk s this k t
    rw [vector_fill_eval, if_neg (by omega)]
  · refine ⟨withSize (resized (fresh emptyState 0) 0 3) 0 3, ?_, ?_⟩
    · rw [vector_sized_eval]; rfl
    · rw [size_eval, withSize_vec_this]

/-- Complete description of `resize` on a vector satisfying the
representation invariant. -/
theorem resize_eval {T : Type} [Inhabited T] (allocOk : Bool) (s : State T) (this : Nat)
    (c : Int) (h : Inv s this) :
    resize allocOk this c s =
      if c ≤ (s.vecs this).numCapacity then .assertFail
      else if allocOk then .ok () (resized s this c)
      else .thrown .unableToAllocate s := by
  have h0 := h.1
  have hle := h.2.1
  by_cases hc : c ≤ (s.vecs this).numCapacity
  · rw [if_pos hc]
    exact resize_assert_fail allocOk s this c (Or.inr hc)
  · rw [if_neg hc]
    cases allocOk with
    | true => exact resize_spec s this c h (by omega)
    | false => exact resize_alloc_fail s this c (by omega) (by omega)

/-- C18. Growth precondition: on a vector satisfying the invariant,
`resize(newCapacity)` fails its assertion exactly when
`newCapacity <= capacity()`, whatever the allocator does; it never returns for
an equal or smaller target; and for a larger target, with the allocation
succeeding, it returns with `capacity() == newCapacity`, `size()` and the
logical contents unchanged. -/
theorem resize_precondition {T : Type} [Inhabited T] (s : State T) (this : Nat)
    (newCapacity : Int) (h : Inv s this) :
    (∀ allocOk : Bool, resize allocOk this newCapacity s = .assertFail ↔
      newCapacity ≤ (s.vecs this).numCapacity) ∧
    (∀ (allocOk : Bool) (s1 : State T), resize allocOk this newCapacity s = .ok () s1 →
      (s.vecs this).numCapacity < newCapacity) ∧
    ((s.vecs this).numCapacity < newCapacity →
      ∃ s1, resize true this newCapacity s = .ok () s1 ∧
        capacity this s1 = .ok newCapacity s1 ∧
        size this s1 = .ok (s.vecs this).numElements s1 ∧
        contents s1 this = contents s this) := by
  refine ⟨?_, ?_, ?_⟩
  · intro allocOk
    rw [resize_eval allocOk s this newCapacity h]
    by_cases hc : newCapacity ≤ (s.vecs this).numCapacity
    · simp [hc]
    · cases allocOk <;> simp [hc]
  · intro allocOk s1 hok
    rw [resize_eval allocOk s this newCapacity h] at hok
    by_cases hc : newCapacity ≤ (s.vecs this).numCapacity
    · rw [if_pos hc] at hok; cases hok
    · omega
  · intro hc
    refine ⟨resized s this newCapacity, resize_spec s this newCapacity h hc, ?_, ?_,
      resized_contents s this newCapacity h⟩
    · rw [capacity_eval, resized_vec_this]
    · rw [size_eval, resized_vec_this]

theorem resize_precondition_witness :
    Inv fullState 0 ∧
    ((∀ allocOk : Bool, resize allocOk 0 5 fullState = .assertFail ↔
      5 ≤ (fullState.vecs 0).numCapacity) ∧
    (∀ (allocOk : Bool) (s1 : State Int), resize allocOk 0 5 fullState = .ok () s1 →
      (fullState.vecs 0).numCapacity < 5) ∧
    ((fullState.vecs 0).numCapacity < 5 →
      ∃ s1, resize true 0 5 fullState = .ok () s1 ∧
        capacity 0 s1 = .ok 5 s1 ∧
        size 0 s1 = .ok (fullState.vecs 0).numElements s1 ∧
        contents s1 0 = contents fullState 0)) :=
  ⟨by decide, resize_precondition fullState 0 5 (by decide)⟩

/-- C14. Allocation-failure atomicity: on a vector satisfying the invariant,
when the allocation in `resize` fails, a direct `resize` to a larger capacity
and a `push_back` that has to grow (capacity 0, or a full buffer whose
doubling fits `int`) both throw the allocation error from a state identical
to the one before the call; and whenever `resize` or `push_back` throws at
all, the state it throws from is the state before the call, so `size()`,
`capacity()` and every element are what they were. -/
theorem allocation_failure_atomic {T : Type} [Inhabited T] (s : State T) (this : Nat) (t : Arg T)
    (h : Inv s this) :
    (∀ c : Int, (s.vecs this).numCapacity < c →
      resize false this c s = .thrown .unableToAllocate s) ∧
    (((s.vecs this).numCapacity = 0 ∨
        ((s.vecs this).numCapacity = (s.vecs this).numElements ∧
          (s.vecs this).numCapacity * 2 ≤ INT_MAX)) →
      push_back false this t s = .thrown .unableToAllocate s) ∧
    (∀ (allocOk : Bool) (c : Int) (e : Exn) (s1 : State T),
      resize allocOk this c s = .thrown e s1 →
        allocOk = false ∧ e = .unableToAllocate ∧ s1 = s) ∧
    (∀ (allocOk : Bool) (e : Exn) (s1 : State T),
      push_back allocOk this t s = .thrown e s1 →
        allocOk = false ∧ e = .unableToAllocate ∧ s1 = s ∧
        size this s1 = size this s ∧ capacity this s1 = capacity this s ∧
        contents s1 this = contents s this ∧
        cellsAt s1 (s1.vecs this).data = cellsAt s (s.vecs this).data) := by
  have h0 := h.1
  have hle := h.2.1
  refine ⟨?_, ?_, ?_, ?_⟩
  · intro c hc
    exact resize_alloc_fail s this c (by omega) hc
  · intro hgrow
    rw [push_back_eval_arg false s this t h]
    rcases hgrow with hz | ⟨hfull, hov⟩
    · rw [if_pos hz]; rfl
    · by_cases hz : (s.vecs this).numCapacity = 0
      · rw [if_pos hz]; rfl
      · rw [if_neg hz, if_pos hfull, if_pos hov]; rfl
  · intro allocOk c e s1 hthrow
    rw [resize_eval allocOk s this c h] at hthrow
    by_cases hc : c ≤ (s.vecs this).numCapacity
    · rw [if_pos hc] at hthrow; cases hthrow
    · rw [if_neg hc] at hthrow
      cases allocOk with
      | true => cases hthrow
      | false =>
        simp only [Bool.false_eq_true, if_false, Res.thrown.injEq] at hthrow
        exact ⟨rfl, hthrow.1.symm, hthrow.2.symm⟩
  · intro allocOk e s1 hthrow
    have key : allocOk = false ∧ e = .unableToAllocate ∧ s1 = s := by
      rw [push_back_eval_arg allocOk s this t h] at hthrow
      by_cases hz : (s.vecs this).numCapacity = 0
      · rw [if_pos hz] at hthrow
        cases allocOk with
        | true => exact absurd hthrow (pushEnd_not_thrown _ _ _ _ _)
        | false =>
          simp only [Bool.false_eq_true, if_false, Res.thrown.injEq] at hthrow
          exact ⟨rfl, hthrow.1.symm, hthrow.2.symm⟩
      · rw [if_neg hz] at hthrow
        by_cases hfull : (s.vecs this).numCapacity = (s.vecs this).numElements
        · rw [if_pos hfull] at hthrow
          by_cases hov : (s.vecs this).numCapacity * 2 ≤ INT_MAX
          · rw [if_pos hov] at hthrow
            cases allocOk with
            | true => exact absurd hthrow (pushEnd_not_thrown _ _ _ _ _)
            | false =>
              simp only [Bool.false_eq_true, if_false, Res.thrown.injEq] at hthrow
              exact ⟨rfl, hthrow.1.symm, hthrow.2.symm⟩
          · rw [if_neg hov] at hthrow; cases hthrow
        · rw [if_neg hfull] at hthrow
          exact absurd hthrow (pushEnd_not_thrown _ _ _ _ _)
    obtain ⟨ha, he, hs⟩ := key
    subst hs
    exact ⟨ha, he, rfl, rfl, rfl, rfl, rfl⟩

theorem allocation_failure_atomic_witness :
    Inv fullState 0 ∧
    ((∀ c : Int, (fullState.vecs 0).numCapacity < c →
      resize false 0 c fullState = .thrown .unableToAllocate fullState) ∧
    (((fullState.vecs 0).numCapacity = 0 ∨
        ((fullState.vecs 0).numCapacity = (fullState.vecs 0).numElements ∧
          (fullState.vecs 0).numCapacity * 2 ≤ INT_MAX)) →
      push_back false 0 (.val 7) fullState = .thrown .unableToAllocate fullState) ∧
    (∀ (allocOk : Bool) (c : Int) (e : Exn) (s1 : State Int),
      resize allocOk 0 c fullState = .thrown e s1 →
        allocOk = false ∧ e = .unableToAllocate ∧ s1 = fullState) ∧
    (∀ (allocOk : Bool) (e : Exn) (s1 : State Int),
      push_back allocOk 0 (.val 7) fullState = .thrown e s1 →
        allocOk = false ∧ e = .unableToAllocate ∧ s1 = fullState ∧
        size 0 s1 = size 0 fullState ∧ capacity 0 s1 = capacity 0 fullState ∧
        contents s1 0 = contents fullState 0 ∧
        cellsAt s1 (s1.vecs 0).data = cellsAt fullState (fullState.vecs 0).data)) :=
  ⟨by decide, allocation_failure_atomic fullState 0 (.val 7) (by decide)⟩

/-! ## Assignment capacity, the actual index check, writes through `operator[]` -/

/-- C19. Assignment capacity: for a destination and a source other than it,
both satisfying the invariant and owning different buffers, after a
`dst = src` that returns the destination's capacity is its old capacity when
that is at least `src.size()`, and exactly `src.size()` otherwise, that is
the larger of the two; a vector copy-constructed from a non-empty source has
`capacity() == source.size()`, whatever the source's capacity. -/
theorem assignment_capacity {T : Type} [Inhabited T] (s : State T) (dst src : Nat)
    (hne : dst ≠ src) (hs : Inv s src) :
    (Inv s dst → Separate s dst src →
      ∀ (allocOk : Bool) (s1 : State T), assign allocOk dst src s = .ok () s1 →
        capacity dst s1 = .ok (max (s.vecs dst).numCapacity (s.vecs src).numElements) s1 ∧
        ((s.vecs src).numElements ≤ (s.vecs dst).numCapacity →
          capacity dst s1 = .ok (s.vecs dst).numCapacity s1) ∧
        ((s.vecs dst).numCapacity < (s.vecs src).numElements →
          capacity dst s1 = .ok (s.vecs src).numElements s1)) ∧
    ((s.vecs src).numElements ≠ 0 →
      ∀ (allocOk : Bool) (s1 : State T), vector_copy allocOk dst src s = .ok () s1 →
        capacity dst s1 = .ok (s.vecs src).numElements s1 ∧
        capacity src s1 = .ok (s.vecs src).numCapacity s1) := by
  have hne2 : src ≠ dst := Ne.symm hne
  refine ⟨?_, ?_⟩
  · intro hd hsep allocOk s1 hok
    obtain ⟨_, _, _, _, hcap⟩ := assign_post allocOk s s1 dst src hne hd hs hsep hok
    rw [capacity_eval, hcap]
    refine ⟨?_, ?_, ?_⟩
    · by_cases hlt : (s.vecs dst).numCapacity < (s.vecs src).numElements
      · rw [if_pos hlt, max_eq_right (le_of_lt hlt)]
      · rw [if_neg hlt, max_eq_left (by omega)]
    · intro hle
      rw [if_neg (by omega)]
    · intro hlt
      rw [if_pos hlt]
  · intro hnz allocOk s1 hok
    rw [vector_copy_eval allocOk s dst src hne, if_neg hnz] at hok
    have hfs := fresh_inv_other s dst src hne2 hs
    have hfsep := fresh_separate s dst src
    obtain ⟨_, hF, _, _, hcap⟩ := assign_post allocOk (fresh s dst) s1 dst src hne
      (fresh_inv s dst) hfs hfsep hok
    have hv : (fresh s dst).vecs src = s.vecs src := fresh_vec_other s dst src hne2
    have hpos : (0 : Int) < (s.vecs src).numElements := by have := hs.1; omega
    rw [hv, fresh_vec_this, if_pos hpos] at hcap
    refine ⟨by rw [capacity_eval, hcap], ?_⟩
    rw [capacity_eval, hF.2.1 src hne2, hv]

theorem assignment_capacity_witness :
    (1 : Nat) ≠ 0 ∧ Inv twoVecState 0 ∧
    ((Inv twoVecState 1 → Separate twoVecState 1 0 →
      ∀ (allocOk : Bool) (s1 : State Int), assign allocOk 1 0 twoVecState = .ok () s1 →
        capacity 1 s1
          = .ok (max (twoVecState.vecs 1).numCapacity (twoVecState.vecs 0).numElements) s1 ∧
        ((twoVecState.vecs 0).numElements ≤ (twoVecState.vecs 1).numCapacity →
          capacity 1 s1 = .ok (twoVecState.vecs 1).numCapacity s1) ∧
        ((twoVecState.vecs 1).numCapacity < (twoVecState.vecs 0).numElements →
          capacity 1 s1 = .ok (twoVecState.vecs 0).numElements s1)) ∧
    ((twoVecState.vecs 0).numElements ≠ 0 →
      ∀ (allocOk : Bool) (s1 : State Int), vector_copy allocOk 1 0 twoVecState = .ok () s1 →
        capacity 1 s1 = .ok (twoVecState.vecs 0).numElements s1 ∧
        capacity 0 s1 = .ok (twoVecState.vecs 0).numCapacity s1)) :=
  ⟨by decide, by decide, assignment_capacity twoVecState 1 0 (by decide) (by decide)⟩

theorem load_not_thrown {T : Type} (p : Ptr) (s : State T) (e : Exn) (s1 : State T) :
    load p s ≠ .thrown e s1 := by
  intro h
  unfold load at h
  cases p with
  | null => cases h
  | loc b o =>
    simp only at h
    split at h
    · cases h
    · split at h
      · split at h
        · cases h
        · cases h
      · cases h

theorem index_ro_guard_pass {T : Type} (s : State T) (this : Nat) (index : Int)
    (hg : index > 0 ∨ index < (s.vecs this).numElements) :
    index_ro this index s = load ((s.vecs this).data.add index) s := by
  simp [index_ro, VM.bind_apply, VM.bind, size, getVec, VM.pure_apply, hg, dataOf]

theorem index_rw_guard_pass {T : Type} (s : State T) (this : Nat) (index : Int)
    (hg : index > 0 ∨ index < (s.vecs this).numElements) :
    index_rw this index s = slotRef this index s := by
  simp [index_rw, VM.bind_apply, VM.bind, size, getVec, VM.pure_apply, hg]

theorem index_guard_fail {T : Type} (s : State T) (this : Nat) (index : Int)
    (hg : ¬ (index > 0 ∨ index < (s.vecs this).numElements)) :
    index_ro this index s = .thrown .invalidIndex s ∧
      index_rw this index s = .thrown .invalidIndex s := by
  constructor
  · simp [index_ro, VM.bind_apply, VM.bind, size, getVec, VM.pure_apply, hg, throwExn]
  · simp [index_rw, VM.bind_apply, VM.bind, size, getVec, VM.pure_apply, hg, throwExn]

theorem slotRef_not_thrown {T : Type} (this : Nat) (index : Int) (s : State T) (e : Exn)
    (s1 : State T) : slotRef this index s ≠ .thrown e s1 := by
  intro h
  have hl := load_not_thrown ((s.vecs this).data.add index) s
  simp only [slotRef, VM.bind_apply, VM.bind, dataOf, getVec, VM.pure_apply] at h
  cases hr : load ((s.vecs this).data.add index) s with
  | ok a t => rw [hr] at h; cases h
  | thrown e2 t => exact hl e2 t hr
  | assertFail => rw [hr] at h; cases h
  | undefined => rw [hr] at h; cases h

/-- C20. Actual index check: on a vector satisfying the invariant, for every
integer index both overloads of `operator[]` throw exactly when
`size() == 0` and `index == 0`; for every other pair, negative indices and
indices at or beyond `size()` included, the guard passes and the result is
that of the raw access `data[index]`. -/
theorem actual_index_check {T : Type} (s : State T) (this : Nat) (index : Int)
    (h : Inv s this) :
    ((∃ e s1, index_ro this index s = .thrown e s1) ↔
      ((s.vecs this).numElements = 0 ∧ index = 0)) ∧
    ((∃ e s1, index_rw this index s = .thrown e s1) ↔
      ((s.vecs this).numElements = 0 ∧ index = 0)) ∧
    (((s.vecs this).numElements = 0 ∧ index = 0) →
      index_ro this index s = .thrown .invalidIndex s ∧
      index_rw this index s = .thrown .invalidIndex s) ∧
    (¬ ((s.vecs this).numElements = 0 ∧ index = 0) →
      index_ro this index s = load ((s.vecs this).data.add index) s ∧
      index_rw this index s = slotRef this index s) := by
  have h0 := h.1
  have hiff : ¬ (index > 0 ∨ index < (s.vecs this).numElements) ↔
      ((s.vecs this).numElements = 0 ∧ index = 0) := by
    constructor
    · intro hg; constructor <;> omega
    · rintro ⟨hn, hi⟩; omega
  refine ⟨?_, ?_, ?_, ?_⟩
  · constructor
    · rintro ⟨e, s1, hthrow⟩
      by_contra hcon
      have hg : index > 0 ∨ index < (s.vecs this).numElements := by
        by_contra hg; exact hcon (hiff.1 hg)
      rw [index_ro_guard_pass s this index hg] at hthrow
      exact load_not_thrown _ s e s1 hthrow
    · intro hz
      exact ⟨_, _, (index_guard_fail s this index (hiff.2 hz)).1⟩
  · constructor
    · rintro ⟨e, s1, hthrow⟩
      by_contra hcon
      have hg : index > 0 ∨ index < (s.vecs this).numElements := by
        by_contra hg; exact hcon (hiff.1 hg)
      rw [index_rw_guard_pass s this index hg] at hthrow
      exact slotRef_not_thrown this index s e s1 hthrow
    · intro hz
      exact ⟨_, _, (index_guard_fail s this index (hiff.2 hz)).2⟩
  · intro hz
    exact index_guard_fail s this index (hiff.2 hz)
  · intro hnz
    have hg : index > 0 ∨ index < (s.vecs this).numElements := by
      by_contra hg; exact hnz (hiff.1 hg)
    exact ⟨index_ro_guard_pass s this index hg, index_rw_guard_pass s this index hg⟩

theorem actual_index_check_witness :
    Inv fullState 0 ∧
    (((∃ e s1, index_ro 0 (-1) fullState = .thrown e s1) ↔
      ((fullState.vecs 0).numElements = 0 ∧ (-1 : Int) = 0)) ∧
    ((∃ e s1, index_rw 0 (-1) fullState = .thrown e s1) ↔
      ((fullState.vecs 0).numElements = 0 ∧ (-1 : Int) = 0)) ∧
    (((fullState.vecs 0).numElements = 0 ∧ (-1 : Int) = 0) →
      index_ro 0 (-1) fullState = .thrown .invalidIndex fullState ∧
      index_rw 0 (-1) fullState = .thrown .invalidIndex fullState) ∧
    (¬ ((fullState.vecs 0).numElements = 0 ∧ (-1 : Int) = 0) →
      index_ro 0 (-1) fullState = load ((fullState.vecs 0).data.add (-1)) fullState ∧
      index_rw 0 (-1) fullState = slotRef 0 (-1) fullState)) :=
  ⟨by decide, actual_index_check fullState 0 (-1) (by decide)⟩

theorem putSlot_contents {T : Type} (s : State T) (this k : Nat) (x : T) :
    contents (putSlot s this k x) this = (contents s this).set k x := by
  rw [contents, putSlot_vecs, putSlot_cells, List.set_take, contents]

/-- C16. Read-write access is visible to the container: on a vector
satisfying the invariant, for `0 <= i < size()`, the read/write `operator[]`
returns a reference to slot `i`, and after assigning `v` through it reading
index `i` gives `v`, every other index below `size()` reads what it read
before, and `size()` and `capacity()` are unchanged. -/
theorem write_through_reference {T : Type} (s : State T) (this : Nat) (i : Int) (v : T)
    (h : Inv s this) (h0 : 0 ≤ i) (hlt : i < (s.vecs this).numElements) :
    ∃ p s1, index_rw this i s = .ok p s ∧ store p v s = .ok () s1 ∧
      index_write this i v s = .ok () s1 ∧
      index_ro this i s1 = .ok v s1 ∧
      (∀ (k : Nat) (e : T), (k : Int) ≠ i → (contents s this)[k]? = some e →
        index_ro this k s = .ok e s ∧ index_ro this k s1 = .ok e s1) ∧
      size this s1 = .ok (s.vecs this).numElements s1 ∧
      capacity this s1 = .ok (s.vecs this).numCapacity s1 ∧
      contents s1 this = (contents s this).set i.toNat v := by
  have hle := h.2.1
  have hlen := h.contents_length
  have hg : i > 0 ∨ i < (s.vecs this).numElements := Or.inr hlt
  have hc : 0 ≤ i ∧ i < (s.vecs this).numCapacity := ⟨h0, by omega⟩
  have hinv1 := putSlot_inv s this i.toNat v h
  have hcont := putSlot_contents s this i.toNat v
  refine ⟨(s.vecs this).data.add i, putSlot s this i.toNat v, ?_, ?_, ?_, ?_, ?_, ?_, ?_, hcont⟩
  · rw [index_rw_eval s this i h, if_pos hg, if_pos hc]
  · rw [store_eval s this i v h, if_pos hc]
  · rw [index_write_eval s this i v h, if_pos hg, if_pos hc]
  · have := index_ro_contents (putSlot s this i.toNat v) this i.toNat v hinv1 (by
      rw [hcont, List.getElem?_set_self (by omega)])
    rwa [Int.toNat_of_nonneg h0] at this
  · intro k e hk he
    refine ⟨index_ro_contents s this k e h he,
      index_ro_contents (putSlot s this i.toNat v) this k e hinv1 ?_⟩
    rw [hcont, List.getElem?_set_ne (by omega), he]
  · rw [size_eval, putSlot_vecs]
  · rw [capacity_eval, putSlot_vecs]

theorem write_through_reference_witness :
    Inv fullState 0 ∧ (0 : Int) ≤ 1 ∧ (1 : Int) < (fullState.vecs 0).numElements ∧
    ∃ p s1, index_rw 0 1 fullState = .ok p fullState ∧ store p 7 fullState = .ok () s1 ∧
      index_write 0 1 7 fullState = .ok () s1 ∧
      index_ro 0 1 s1 = .ok 7 s1 ∧
      (∀ (k : Nat) (e : Int), (k : Int) ≠ 1 → (contents fullState 0)[k]? = some e →
        index_ro 0 k fullState = .ok e fullState ∧ index_ro 0 k s1 = .ok e s1) ∧
      size 0 s1 = .ok (fullState.vecs 0).numElements s1 ∧
      capacity 0 s1 = .ok (fullState.vecs 0).numCapacity s1 ∧
      contents s1 0 = (contents fullState 0).set (1 : Int).toNat 7 :=
  ⟨by decide, by decide, by decide,
    write_through_reference fullState 0 1 7 (by decide) (by decide) (by decide)⟩

/-! ## Amortised cost and the end-to-end scenario -/

theorem stateAfter_ok {T : Type} (m : VM T Unit) (s s1 : State T) (h : m s = .ok () s1) :
    stateAfter m s = s1 := by
  unfold stateAfter
  rw [h]

theorem copiesUpTo_step (m : Nat) (c : Nat)
    (hc : (c : Int) = if capSeq m = 0 then 0 else if capSeq m = (m : Int) then (m : Int) else 0) :
    copiesUpTo (m + 1) = copiesUpTo m + c := by
  have hspec := capSeq_spec m
  have hsucc : capSeq (m + 1) = growCap m (capSeq m) := rfl
  unfold copiesUpTo
  rw [if_neg (Nat.succ_ne_zero m), hsucc]
  unfold growCap
  rcases hspec with ⟨hm, hz⟩ | ⟨hm, k, hk, hle, hlt⟩
  · subst hm
    rw [hz] at hc ⊢
    simp only [if_true] at hc ⊢
    omega
  · have hpos : (0 : Int) < 2 ^ k := by positivity
    have hne : capSeq m ≠ 0 := by omega
    have hm0 : m ≠ 0 := by omega
    rw [if_neg hne] at hc ⊢
    rw [if_neg hm0]
    by_cases hfull : capSeq m = (m : Int)
    · rw [if_pos hfull] at hc ⊢
      omega
    · rw [if_neg hfull] at hc ⊢
      omega

theorem pushAllCopies_spec {T : Type} [Inhabited T] (this : Nat) (vals : List T) :
    ∀ (s : State T) (m : Nat), Inv s this → (s.vecs this).numElements = m →
      (s.vecs this).numCapacity = capSeq m → m + vals.length ≤ 1073741824 →
      (pushAllCopies this vals s : Int) = copiesUpTo (m + vals.length) - copiesUpTo m := by
  induction vals with
  | nil =>
    intro s m _ _ _ _
    simp [pushAllCopies]
  | cons v vs ih =>
    intro s m hinv hn hc hlen
    simp only [List.length_cons] at hlen
    obtain ⟨s1, hs1⟩ := push_back_returns s this v hinv (by
      intro hfull
      rw [hfull, hn]
      simp only [INT_MAX]
      omega)
    obtain ⟨hinv1, _, _, hn1, hc1⟩ := push_back_post true s s1 this v hinv hs1
    have hc1' : (s1.vecs this).numCapacity = capSeq (m + 1) := by
      rw [hc1]
      show _ = growCap m (capSeq m)
      unfold growCap
      rw [hc, hn]
    have hrec := ih s1 (m + 1) hinv1 (by rw [hn1, hn]; push_cast; rfl) hc1' (by omega)
    have hstep := copiesUpTo_step m (pushCopies s this) (by
      unfold pushCopies resizeCopies
      rw [hc, hn]
      by_cases h0 : capSeq m = 0
      · rw [if_pos h0, if_pos h0]
        rcases capSeq_spec m with ⟨hm, _⟩ | ⟨_, k, hk, _, _⟩
        · subst hm; rfl
        · have hpos : (0 : Int) < 2 ^ k := by positivity
          omega
      · rw [if_neg h0, if_neg h0]
        by_cases hfull : capSeq m = (m : Int)
        · rw [if_pos hfull, if_pos hfull]; simp
        · rw [if_neg hfull, if_neg hfull]; rfl)
    simp only [pushAllCopies, stateAfter_ok _ s s1 hs1, List.length_cons]
    push_cast
    rw [hrec, show m + (vs.length + 1) = m + 1 + vs.length by omega, hstep]
    ring

/-- C17. Amortised constant append: for `1 <= n <= 2^30`, across `n` calls
of `push_back` on a default-constructed vector (allocations succeeding) the
calls all return and the copy loop of `resize` copies, in total, one element
less than the final capacity, which is fewer than `2n` elements. -/
theorem amortized_append_copies {T : Type} [Inhabited T] (s0 : State T) (this : Nat)
    (vals : List T) (h1 : 1 ≤ vals.length) (hn : vals.length ≤ 1073741824) :
    ∃ s1 c, pushRun this vals s0 = .ok () s1 ∧ capacity this s1 = .ok c s1 ∧
      (pushRunCopies this vals s0 : Int) = c - 1 ∧
      pushRunCopies this vals s0 < 2 * vals.length := by
  obtain ⟨s1, hs1, _, _, hc1, _⟩ := pushRun_spec s0 this vals hn
  have hcount := pushAllCopies_spec this vals (fresh s0 this) 0 (fresh_inv s0 this)
    (by simp [fresh_vec_this]) (by simp [fresh_vec_this, capSeq]) (by omega)
  have hD0 : copiesUpTo 0 = 0 := rfl
  have hDn : copiesUpTo vals.length = capSeq vals.length - 1 := by
    unfold copiesUpTo
    rw [if_neg (by omega)]
  simp only [Nat.zero_add, hD0, hDn, sub_zero] at hcount
  have hrun : (pushRunCopies this vals s0 : Int) = capSeq vals.length - 1 := hcount
  refine ⟨s1, capSeq vals.length, hs1, by rw [capacity_eval, hc1], hrun, ?_⟩
  rcases capSeq_spec vals.length with ⟨h0, _⟩ | ⟨_, k, hk, _, hlt⟩
  · omega
  · omega

theorem amortized_append_copies_witness :
    1 ≤ ([10, 20, 30] : List Int).length ∧ ([10, 20, 30] : List Int).length ≤ 1073741824 ∧
    ∃ s1 c, pushRun 0 ([10, 20, 30] : List Int) emptyState = .ok () s1 ∧
      capacity 0 s1 = .ok c s1 ∧
      (pushRunCopies 0 ([10, 20, 30] : List Int) emptyState : Int) = c - 1 ∧
      pushRunCopies 0 ([10, 20, 30] : List Int) emptyState
        < 2 * ([10, 20, 30] : List Int).length :=
  ⟨by decide, by decide,
    amortized_append_copies emptyState 0 [10, 20, 30] (by decide) (by decide)⟩

/-- What a copy construction from a non-empty source other than the object
under construction has done when it returns, and that it returns when the
allocator works. -/
theorem vector_copy_post {T : Type} [Inhabited T] (s : State T) (dst src : Nat)
    (hne : dst ≠ src) (hs : Inv s src) (hnz : (s.vecs src).numElements ≠ 0) :
    (∃ s1, vector_copy true dst src s = .ok () s1) ∧
    ∀ (allocOk : Bool) (s1 : State T), vector_copy allocOk dst src s = .ok () s1 →
      Inv s1 dst ∧ Inv s1 src ∧ Separate s1 dst src ∧
      contents s1 dst = contents s src ∧ contents s1 src = contents s src ∧
      s1.vecs src = s.vecs src ∧
      (s1.vecs dst).numElements = (s.vecs src).numElements := by
  have hne2 : src ≠ dst := Ne.symm hne
  have hfd := fresh_inv s dst
  have hfs := fresh_inv_other s dst src hne2 hs
  have hfsep := fresh_separate s dst src
  have hfv : (fresh s dst).vecs src = s.vecs src := fresh_vec_other s dst src hne2
  have hfc : contents (fresh s dst) src = contents s src := fresh_contents_other s dst src hne2
  refine ⟨?_, ?_⟩
  · rw [vector_copy_eval true s dst src hne, if_neg hnz,
      assign_eval true (fresh s dst) dst src hne hfd hfs hfsep]
    by_cases hlt : ((fresh s dst).vecs dst).numCapacity < ((fresh s dst).vecs src).numElements
    · exact ⟨_, by rw [if_pos hlt]; rfl⟩
    · exact ⟨_, by rw [if_neg hlt]⟩
  · intro allocOk s1 hok
    rw [vector_copy_eval allocOk s dst src hne, if_neg hnz] at hok
    obtain ⟨h1, hF, hcont, hn, _⟩ :=
      assign_post allocOk (fresh s dst) s1 dst src hne hfd hfs hfsep hok
    refine ⟨h1, hF.inv_other hne2 hfs hfsep, hF.separate hne2 hfs hfsep, by rw [hcont, hfc],
      (hF.contents_other hne2 hfs hfsep).trans hfc, (hF.2.1 src hne2).trans hfv, by rw [hn, hfv]⟩

/-- C15. End-to-end scenario: default-construct `v` and push 1, 2, 3, 4, 5;
then `v.size() == 5`, `v.capacity() == 8` and `v[2] == 3`; copy-construct `w`
from `v` and push 6 onto `w`; then `v.size() == 5`, `w.size() == 6`,
`v[4] == 5`, `w[4] == 5` and `w[5] == 6`. Every call returns (allocations
succeeding). -/
theorem end_to_end_scenario :
    ∃ s5 : State Int, pushRun 0 [1, 2, 3, 4, 5] emptyState = .ok () s5 ∧
      size 0 s5 = .ok 5 s5 ∧ capacity 0 s5 = .ok 8 s5 ∧ index_ro 0 2 s5 = .ok 3 s5 ∧
      ∃ s6, vector_copy true 1 0 s5 = .ok () s6 ∧
      ∃ s7, push_back true 1 (.val 6) s6 = .ok () s7 ∧
        size 0 s7 = .ok 5 s7 ∧ size 1 s7 = .ok 6 s7 ∧
        index_ro 0 4 s7 = .ok 5 s7 ∧ index_ro 1 4 s7 = .ok 5 s7 ∧
        index_ro 1 5 s7 = .ok 6 s7 := by
  obtain ⟨s5, hrun, hinv5, hn5, hc5, hcont5⟩ :=
    pushRun_spec emptyState 0 ([1, 2, 3, 4, 5] : List Int) (by decide)
  have hn5' : (s5.vecs 0).numElements = 5 := hn5
  have hc5' : (s5.vecs 0).numCapacity = 8 := by rw [hc5]; decide
  obtain ⟨⟨s6, hcopy⟩, hpost⟩ := vector_copy_post s5 1 0 (by decide) hinv5 (by rw [hn5']; decide)
  obtain ⟨hinv6w, hinv6v, hsep6, hcont6w, hcont6v, hv6, hn6⟩ := hpost true s6 hcopy
  have hcap6 := hinv6w.2.2.1
  obtain ⟨s7, hpush⟩ := push_back_returns s6 1 6 hinv6w (by
    intro hfull
    rw [hfull, hn6, hn5']
    decide)
  obtain ⟨hinv7w, hF7, hcont7w, hn7, _⟩ := push_back_post true s6 s7 1 6 hinv6w hpush
  have hne : (0 : Nat) ≠ 1 := by decide
  have hinv7v : Inv s7 0 := hF7.inv_other hne hinv6v hsep6
  have hcont7v : contents s7 0 = [1, 2, 3, 4, 5] := by
    rw [hF7.contents_other hne hinv6v hsep6, hcont6v, hcont5]
  have hcont7w' : contents s7 1 = [1, 2, 3, 4, 5, 6] := by
    rw [hcont7w, hcont6w, hcont5]; rfl
  refine ⟨s5, hrun, by rw [size_eval, hn5'], by rw [capacity_eval, hc5'], ?_,
    s6, hcopy, s7, hpush, ?_, ?_, ?_, ?_, ?_⟩
  · exact index_ro_contents s5 0 2 3 hinv5 (by rw [hcont5]; rfl)
  · rw [size_eval, hF7.2.1 0 hne, hv6, hn5']
  · rw [size_eval, hn7, hn6, hn5']; rfl
  · exact index_ro_contents s7 0 4 5 hinv7v (by rw [hcont7v]; rfl)
  · exact index_ro_contents s7 1 4 5 hinv7w (by rw [hcont7w']; rfl)
  · exact index_ro_contents s7 1 5 6 hinv7w (by rw [hcont7w']; rfl)

end custom
